import Mathlib

/-!
Shallow embedding of the cleanup engine of `dataaxiom/ghcr-cleanup-action`.

The embedding follows `src/cleanup-task.ts`, `src/package-repo.ts`,
`src/registry.ts` and `src/config.ts` of the repository.  JavaScript `Set`
objects are modelled as duplicate-free `List String` in insertion order
(`Set.add` appends when absent, `Set.delete` removes), JavaScript `Map`s as
association lists with last-write-wins lookup, and the `wildcard-match` /
`RegExp` tag matchers — external libraries — as abstract `String → Bool`
predicates.  The GitHub package listing is a `List PackageVersion` in
pagination order; registry manifests are a total function `String → Manifest`
(the task never recovers from a missing manifest on the paths modelled here).
-/

namespace GhcrCleanup

/-- JS `String.prototype.startsWith`, on UTF-8 character lists. -/
def strStartsWith (s p : String) : Bool :=
  p.toList.isPrefixOf s.toList

/-- Replace the first occurrence of `pat` by `rep`, on character lists
(JS `String.prototype.replace` with a string pattern replaces only the
first occurrence). -/
def replaceFirstList (pat rep : List Char) : List Char → List Char
  | [] => []
  | c :: rest =>
    if pat.isPrefixOf (c :: rest) then rep ++ (c :: rest).drop pat.length
    else c :: replaceFirstList pat rep rest

/-- JS `s.replace(pat, rep)` for a string pattern. -/
def jsReplace (s pat rep : String) : String :=
  ⟨replaceFirstList pat.toList rep.toList s.toList⟩

/-- JS `s.substring(0, n)`. -/
def strTake (s : String) (n : Nat) : String :=
  ⟨s.toList.take n⟩

/-- JS `s.length` (all strings involved are ASCII). -/
def strLen (s : String) : Nat :=
  s.toList.length

/-- JS `Set.add`: append if not already present. -/
def setAdd (l : List String) (x : String) : List String :=
  if x ∈ l then l else l ++ [x]

/-- JS `Set.delete`: remove the element (sets hold no duplicates). -/
def setDel (l : List String) (x : String) : List String :=
  l.filter (fun y => y ≠ x)

/-- Keep the first occurrence of each element (JS `Map`/`Set` key order). -/
def dedupFirst (l : List String) : List String :=
  l.foldl (fun acc t => if t ∈ acc then acc else acc ++ [t]) []

theorem setAdd_mem {l : List String} {x y : String} :
    y ∈ setAdd l x ↔ y ∈ l ∨ y = x := by
  unfold setAdd
  by_cases h : x ∈ l
  · simp only [if_pos h]
    constructor
    · exact Or.inl
    · rintro (hy | rfl)
      · exact hy
      · exact h
  · simp [if_neg h]

theorem setDel_mem {l : List String} {x y : String} :
    y ∈ setDel l x ↔ y ∈ l ∧ y ≠ x := by
  unfold setDel
  simp

theorem mem_of_mem_setDel {l : List String} {x y : String}
    (h : y ∈ setDel l x) : y ∈ l :=
  (setDel_mem.mp h).1

theorem mem_setAdd_self (l : List String) (x : String) : x ∈ setAdd l x := by
  by_cases h : x ∈ l
  · simpa [setAdd, if_pos h]
  · simp [setAdd, if_neg h]

/-- One GitHub package version (`packageVersion` of the packages API):
`id`, `name` (the digest `sha256:<hex>`), `metadata.container.tags`,
`updated_at` (as a parsed timestamp, `Date.parse` value). -/
structure PackageVersion where
  id : Nat
  name : String
  tags : List String
  updatedAt : Int
deriving Repr, DecidableEq

/-- A parsed OCI manifest as the task uses it: either an index manifest
(`manifest.manifests` is set, holding the child digests) or a single-image
manifest (`manifest.layers`, holding the layer media types). -/
inductive Manifest where
  | index (manifests : List String)
  | image (layers : List String)
deriving Repr, DecidableEq

/-- The container registry: manifests by digest (`Registry.getManifestByDigest`,
memoised in the source; the cache is observationally the function itself). -/
abbrev Reg := String → Manifest

/-- `PackageRepo.getPackageByDigest`: `digest2Id` then `id2Package`.  Both JS
maps are last-write-wins over the pagination order, hence the reversed find. -/
def getPackageByDigest (repo : List PackageVersion) (digest : String) :
    Option PackageVersion :=
  repo.reverse.find? (fun v => v.name == digest)

/-- `PackageRepo.getIdByDigest`. -/
def getIdByDigest (repo : List PackageVersion) (digest : String) : Option Nat :=
  (getPackageByDigest repo digest).map (·.id)

/-- `PackageRepo.getDigestByTag`: the `tag2Digest` map, last write wins. -/
def getDigestByTag (repo : List PackageVersion) (tag : String) : Option String :=
  (repo.reverse.find? (fun v => tag ∈ v.tags)).map (·.name)

/-- `PackageRepo.getTags`: keys of `tag2Digest` in insertion order. -/
def getTags (repo : List PackageVersion) : List String :=
  dedupFirst (repo.map (·.tags)).flatten

/-- `PackageRepo.getDigests`: keys of `digest2Id` in insertion order. -/
def getDigests (repo : List PackageVersion) : List String :=
  dedupFirst (repo.map (·.name))

theorem getPackageByDigest_name {repo : List PackageVersion} {d : String}
    {p : PackageVersion} (h : getPackageByDigest repo d = some p) :
    p.name = d := by
  unfold getPackageByDigest at h
  have h2 := List.find?_some h
  exact beq_iff_eq.mp h2

/-- The `digestUsedBy : Map<string, Set<string>>` of the task, as an
association list (keys unique by construction). -/
abbrev UsedByMap := List (String × List String)

/-- `Map.get`. -/
def ubGet (m : UsedByMap) (k : String) : Option (List String) :=
  (m.find? (fun p => p.1 == k)).map (·.2)

/-- `Map.set` on an existing key replaces the value in place. -/
def ubSet (m : UsedByMap) (k : String) (v : List String) : UsedByMap :=
  if m.any (fun p => p.1 == k) then
    m.map (fun p => if p.1 == k then (k, v) else p)
  else m ++ [(k, v)]

/-- `Map.delete`. -/
def ubDel (m : UsedByMap) (k : String) : UsedByMap :=
  m.filter (fun p => p.1 != k)

theorem ubGet_ubDel_ne {k k' : String} (h : k ≠ k') (m : UsedByMap) :
    ubGet (ubDel m k') k = ubGet m k := by
  unfold ubGet ubDel
  induction m with
  | nil => rfl
  | cons p rest ih =>
    by_cases hp : p.1 = k'
    · rw [List.filter_cons_of_neg (by simp [hp]),
        List.find?_cons_of_neg _ (by simp [hp]; exact fun hh => h hh.symm)]
      exact ih
    · rw [List.filter_cons_of_pos (by simp [hp])]
      by_cases hpk : p.1 = k
      · rw [List.find?_cons_of_pos _ (by simp [hpk]),
          List.find?_cons_of_pos _ (by simp [hpk])]
      · rw [List.find?_cons_of_neg _ (by simp [hpk]),
          List.find?_cons_of_neg _ (by simp [hpk])]
        exact ih

theorem find?_map_setval {k k' : String} {v : List String} (h : k ≠ k')
    (m : UsedByMap) :
    (m.map (fun p => if p.1 == k' then (k', v) else p)).find?
        (fun p => p.1 == k) =
      m.find? (fun p => p.1 == k) := by
  induction m with
  | nil => rfl
  | cons p rest ih =>
    by_cases hp : p.1 = k'
    · rw [List.map_cons, if_pos (by simp [hp]),
        List.find?_cons_of_neg _ (by simp; exact fun hh => h hh.symm),
        List.find?_cons_of_neg _ (by simp [hp]; exact fun hh => h hh.symm)]
      exact ih
    · rw [List.map_cons, if_neg (by simp [hp])]
      by_cases hpk : p.1 = k
      · rw [List.find?_cons_of_pos _ (by simp [hpk]),
          List.find?_cons_of_pos _ (by simp [hpk])]
      · rw [List.find?_cons_of_neg _ (by simp [hpk]),
          List.find?_cons_of_neg _ (by simp [hpk])]
        exact ih

theorem find?_append_singleval {k k' : String} {v : List String} (h : k ≠ k')
    (m : UsedByMap) :
    (m ++ [(k', v)]).find? (fun p => p.1 == k) =
      m.find? (fun p => p.1 == k) := by
  induction m with
  | nil =>
    simp only [List.nil_append]
    rw [List.find?_cons_of_neg _ (by simp; exact fun hh => h hh.symm)]
  | cons p rest ih =>
    rw [List.cons_append]
    by_cases hpk : p.1 = k
    · rw [List.find?_cons_of_pos _ (by simp [hpk]),
        List.find?_cons_of_pos _ (by simp [hpk])]
    · rw [List.find?_cons_of_neg _ (by simp [hpk]),
        List.find?_cons_of_neg _ (by simp [hpk])]
      exact ih

theorem ubGet_ubSet_ne {k k' : String} {v : List String} (h : k ≠ k')
    (m : UsedByMap) : ubGet (ubSet m k' v) k = ubGet m k := by
  unfold ubGet ubSet
  by_cases hin : m.any (fun p => p.1 == k')
  · rw [if_pos hin, find?_map_setval h]
  · rw [if_neg hin, find?_append_singleval h]

/-- The mutable state of one `CleanupTask`: the loaded package listing
(`PackageRepo`'s maps, represented by the version list they are built from),
`filterSet`, `deleteSet`, the resolved `excludeTags`, `digestUsedBy`, the
`deleted` set, and a log of the `deletePackageVersion` calls performed
(`id`, digest, tags argument). -/
structure CState where
  repo : List PackageVersion
  filterSet : List String
  deleteSet : List String
  excludeTags : List String
  usedBy : UsedByMap
  deleted : List String
  log : List (Nat × String × List String)
deriving Repr, DecidableEq

/-- The two instructions every selection stage performs when it selects a
digest: `this.deleteSet.add(digest); this.filterSet.delete(digest)`. -/
def moveStep (s : CState) (d : String) : CState :=
  { s with deleteSet := setAdd s.deleteSet d, filterSet := setDel s.filterSet d }

/-- Common shape of the selection loops of `cleanup-task.ts`: iterate over a
snapshot of candidates, and for each candidate that the stage condition maps
to a digest, move that digest from `filterSet` into `deleteSet`.  Each stage
instantiates `f` with its literal per-candidate condition. -/
def foldMoveOpt {α : Type} (f : α → Option String) (xs : List α) (s : CState) :
    CState :=
  xs.foldl (fun acc x => match f x with | some d => moveStep acc d | none => acc) s

theorem foldMoveOpt_deleteSet_mem {α : Type} (f : α → Option String)
    (xs : List α) (s : CState) (d : String) :
    d ∈ (foldMoveOpt f xs s).deleteSet ↔
      d ∈ s.deleteSet ∨ ∃ x ∈ xs, f x = some d := by
  induction xs generalizing s with
  | nil => simp [foldMoveOpt]
  | cons x rest ih =>
    unfold foldMoveOpt at *
    rw [List.foldl_cons]
    cases hfx : f x with
    | none =>
      rw [ih]
      constructor
      · rintro (hd | ⟨y, hy, hfy⟩)
        · exact Or.inl hd
        · exact Or.inr ⟨y, List.mem_cons_of_mem _ hy, hfy⟩
      · rintro (hd | ⟨y, hy, hfy⟩)
        · exact Or.inl hd
        · rcases List.mem_cons.mp hy with rfl | hy'
          · rw [hfx] at hfy; exact absurd hfy (by simp)
          · exact Or.inr ⟨y, hy', hfy⟩
    | some d' =>
      rw [ih]
      simp only [moveStep, setAdd_mem]
      constructor
      · rintro (⟨hd | rfl⟩ | ⟨y, hy, hfy⟩)
        · exact Or.inl hd
        · exact Or.inr ⟨x, List.mem_cons_self _ _, hfx⟩
        · exact Or.inr ⟨y, List.mem_cons_of_mem _ hy, hfy⟩
      · rintro (hd | ⟨y, hy, hfy⟩)
        · exact Or.inl (Or.inl hd)
        · rcases List.mem_cons.mp hy with rfl | hy'
          · rw [hfx] at hfy
            exact Or.inl (Or.inr (Option.some_inj.mp hfy).symm)
          · exact Or.inr ⟨y, hy', hfy⟩

theorem foldMoveOpt_filterSet_mem {α : Type} (f : α → Option String)
    (xs : List α) (s : CState) (d : String) :
    d ∈ (foldMoveOpt f xs s).filterSet ↔
      d ∈ s.filterSet ∧ ¬∃ x ∈ xs, f x = some d := by
  induction xs generalizing s with
  | nil => simp [foldMoveOpt]
  | cons x rest ih =>
    unfold foldMoveOpt at *
    rw [List.foldl_cons]
    cases hfx : f x with
    | none =>
      rw [ih]
      constructor
      · rintro ⟨hd, hne⟩
        refine ⟨hd, fun ⟨y, hy, hfy⟩ => ?_⟩
        rcases List.mem_cons.mp hy with rfl | hy'
        · rw [hfx] at hfy; exact absurd hfy (by simp)
        · exact hne ⟨y, hy', hfy⟩
      · rintro ⟨hd, hne⟩
        exact ⟨hd, fun ⟨y, hy, hfy⟩ => hne ⟨y, List.mem_cons_of_mem _ hy, hfy⟩⟩
    | some d' =>
      rw [ih]
      simp only [moveStep, setDel_mem]
      constructor
      · rintro ⟨⟨hd, hdd'⟩, hne⟩
        refine ⟨hd, fun ⟨y, hy, hfy⟩ => ?_⟩
        rcases List.mem_cons.mp hy with rfl | hy'
        · rw [hfx] at hfy
          exact hdd' (Option.some_inj.mp hfy).symm
        · exact hne ⟨y, hy', hfy⟩
      · rintro ⟨hd, hne⟩
        refine ⟨⟨hd, fun hdd' => ?_⟩, fun ⟨y, hy, hfy⟩ =>
          hne ⟨y, List.mem_cons_of_mem _ hy, hfy⟩⟩
        exact hne ⟨x, List.mem_cons_self _ _, by rw [hfx, hdd']⟩

theorem foldMoveOpt_repo {α : Type} (f : α → Option String) (xs : List α)
    (s : CState) : (foldMoveOpt f xs s).repo = s.repo := by
  induction xs generalizing s with
  | nil => rfl
  | cons x rest ih =>
    unfold foldMoveOpt at *
    rw [List.foldl_cons]
    cases f x
    · exact ih s
    · exact ih _

theorem foldMoveOpt_excludeTags {α : Type} (f : α → Option String) (xs : List α)
    (s : CState) : (foldMoveOpt f xs s).excludeTags = s.excludeTags := by
  induction xs generalizing s with
  | nil => rfl
  | cons x rest ih =>
    unfold foldMoveOpt at *
    rw [List.foldl_cons]
    cases f x
    · exact ih s
    · exact ih _

/-- `filterSet` and `deleteSet` stay disjoint under any stage of this shape. -/
theorem foldMoveOpt_disjoint {α : Type} (f : α → Option String) (xs : List α)
    (s : CState) (h : ∀ x, x ∈ s.filterSet → x ∉ s.deleteSet) :
    ∀ x, x ∈ (foldMoveOpt f xs s).filterSet →
      x ∉ (foldMoveOpt f xs s).deleteSet := by
  intro x hx hmem
  obtain ⟨hxf, hne⟩ := (foldMoveOpt_filterSet_mem f xs s x).mp hx
  rcases (foldMoveOpt_deleteSet_mem f xs s x).mp hmem with hd | hex
  · exact h x hxf hd
  · exact hne hex

/-! ### Reload (`CleanupTask.reload`, `loadDigestUsedByMap`, `initFilterSet`) -/

/-- Children listed by a digest's manifest when it is an index
(`manifest.manifests`), else nothing. -/
def manifestChildren (reg : Reg) (d : String) : List String :=
  match reg d with
  | .index children => children
  | .image _ => []

/-- `CleanupTask.loadDigestUsedByMap`, lines 143-189.  The JS loop iterates a
mutable `Set` of digests and deletes each child it maps, so a child is skipped
by iteration once removed and — because `digests.has` is checked on the same
mutable set — later parents of an already-mapped child are NOT recorded.  The
set is modelled as `seen ++ todo`; `fuel` bounds the number of iterations (one
element of `todo` is consumed per call, so `todo.length` is always enough). -/
def loadUsedByLoop (reg : Reg) :
    Nat → List String → List String → UsedByMap → UsedByMap
  | 0, _, _, ub => ub
  | _ + 1, _, [], ub => ub
  | fuel + 1, seen, d :: todo, ub =>
    match reg d with
    | .image _ => loadUsedByLoop reg fuel (seen ++ [d]) todo ub
    | .index children =>
      let acc := children.foldl
        (fun (acc : List String × List String × UsedByMap) c =>
          let sn := acc.1
          let td := acc.2.1
          let u := acc.2.2
          if c ∈ sn ∨ c ∈ td then
            (setDel sn c, setDel td c,
              ubSet u c (setAdd ((ubGet u c).getD []) d))
          else acc)
        (seen ++ [d], todo, ub)
      loadUsedByLoop reg fuel acc.1 acc.2.1 acc.2.2

/-- The `digestUsedBy` map built by `reload`. -/
def loadDigestUsedByMap (reg : Reg) (repo : List PackageVersion) : UsedByMap :=
  loadUsedByLoop reg (getDigests repo).length [] (getDigests repo) []

/-- The per-digest removals of `CleanupTask.initFilterSet` (lines 195-224):
children of the digest's own manifest, plus — for every tag starting with the
digest's `sha256-` form — the tag's target digest and that target's children. -/
def initFSRemovals (reg : Reg) (repo : List PackageVersion) (d : String) :
    List String :=
  let digestTag := jsReplace d "sha256:" "sha256-"
  manifestChildren reg d ++
    (getTags repo).foldl (fun acc tag =>
      if strStartsWith tag digestTag then
        match getDigestByTag repo tag with
        | some tagDigest => acc ++ tagDigest :: manifestChildren reg tagDigest
        | none => acc
      else acc) []

/-- `CleanupTask.initFilterSet` main loop: iterate the mutable digest set,
removing `initFSRemovals` of each visited digest from the whole set (elements
removed before being visited are skipped by iteration). -/
def initFSLoop (reg : Reg) (repo : List PackageVersion) :
    Nat → List String → List String → List String
  | 0, visited, _ => visited
  | _ + 1, visited, [] => visited
  | fuel + 1, visited, d :: pending =>
    let rem := initFSRemovals reg repo d
    initFSLoop reg repo fuel
      ((visited ++ [d]).filter (fun y => y ∉ rem))
      (pending.filter (fun y => y ∉ rem))

/-- The `filterSet` built by `CleanupTask.initFilterSet`. -/
def initFilterSet (reg : Reg) (repo : List PackageVersion) : List String :=
  initFSLoop reg repo (getDigests repo).length [] (getDigests repo)

/-- The exclude-tags part of `CleanupTask.reload` (lines 70-97): for every tag
in use matching the exclude pattern, delete its digest from `filterSet` and
record the tag in `excludeTags` (the regex and wildcard branches differ only
in the matcher, abstracted as `m`). -/
def excludeReload (m : String → Bool) (s : CState) : CState :=
  (getTags s.repo).foldl
    (fun acc tag =>
      if m tag then
        { acc with
          filterSet :=
            match getDigestByTag s.repo tag with
            | some digest => setDel acc.filterSet digest
            | none => acc.filterSet,
          excludeTags := acc.excludeTags ++ [tag] }
      else acc)
    { s with excludeTags := [] }

/-- `CleanupTask.reload`: clear `deleteSet`/`deleted`, reload the package
maps, rebuild `digestUsedBy`, initialise `filterSet`, then resolve exclude
tags (skipped when the option is unset).  The `olderThan` age filter is not
modelled (no claim depends on it and it reads the wall clock). -/
def reloadModel (reg : Reg) (excludeMatch : Option (String → Bool))
    (repo : List PackageVersion) : CState :=
  let s : CState :=
    { repo := repo
      filterSet := initFilterSet reg repo
      deleteSet := []
      excludeTags := []
      usedBy := loadDigestUsedByMap reg repo
      deleted := []
      log := [] }
  match excludeMatch with
  | some m => excludeReload m s
  | none => s

/-! ### Selection stages -/

/-- Ghost test of `CleanupTask.deleteGhostImages` (lines 413-427): an index
manifest all of whose listed children are absent from the package (an index
with an empty child list counts: `missing === manifests.length` holds). -/
def ghostCheck (reg : Reg) (repo : List PackageVersion) (d : String) : Bool :=
  match reg d with
  | .index children =>
    children.countP (fun c => (getIdByDigest repo c).isNone) = children.length
  | .image _ => false

/-- Partial test of `CleanupTask.deletePartialImages` (lines 451-461): an
index manifest some listed child of which is absent from the package. -/
def partialCheck (reg : Reg) (repo : List PackageVersion) (d : String) : Bool :=
  match reg d with
  | .index children => children.any (fun c => (getIdByDigest repo c).isNone)
  | .image _ => false

/-- `CleanupTask.deleteGhostImages` (lines 409-445). -/
def deleteGhostImages (reg : Reg) (s : CState) : CState :=
  foldMoveOpt (fun d => if ghostCheck reg s.repo d then some d else none)
    s.filterSet s

/-- `CleanupTask.deletePartialImages` (lines 447-480). -/
def deletePartialImages (reg : Reg) (s : CState) : CState :=
  foldMoveOpt (fun d => if partialCheck reg s.repo d then some d else none)
    s.filterSet s

/-- `CleanupTask.deleteOrphanedImages` (lines 482-510): scan ALL tags in use;
for a `sha256-` tag whose subject digest (the tag name with `sha256-`
swapped back to `sha256:`, trimmed to 71 characters) is not a package
version, move the tag's own target digest into `deleteSet`. -/
def deleteOrphanedImages (s : CState) : CState :=
  foldMoveOpt
    (fun tag =>
      if strStartsWith tag "sha256-" then
        let digest := jsReplace tag "sha256-" "sha256:"
        let digest := if strLen digest > 71 then strTake digest 71 else digest
        if (getIdByDigest s.repo digest).isNone then getDigestByTag s.repo tag
        else none
      else none)
    (getTags s.repo) s

/-- Stable insert for the descending-by-`updatedAt` sort. -/
def insertDesc (p : PackageVersion) :
    List PackageVersion → List PackageVersion
  | [] => [p]
  | q :: rest =>
    if q.updatedAt < p.updatedAt then p :: q :: rest else q :: insertDesc p rest

/-- JS `Array.prototype.sort` with comparator
`(a, b) => Date.parse(b.updated_at) - Date.parse(a.updated_at)`: the stable
descending sort by `updatedAt` (stable sorts agree on total preorders, so a
stable insertion sort models V8's TimSort exactly). -/
def sortByUpdatedDesc (l : List PackageVersion) : List PackageVersion :=
  l.foldl (fun acc p => insertDesc p acc) []

/-- The tagged packages collected from `filterSet` by `CleanupTask.keepNtagged`
(lines 711-716).  A digest with no package entry is skipped here; the source
would fail on it, and the run-level theorems only use consistent states. -/
def collectTagged (s : CState) : List PackageVersion :=
  s.filterSet.filterMap (fun d =>
    match getPackageByDigest s.repo d with
    | some ghPackage => if ghPackage.tags.length > 0 then some ghPackage else none
    | none => none)

/-- The untagged packages collected from `filterSet` by
`CleanupTask.keepNuntagged` (lines 666-671). -/
def collectUntagged (s : CState) : List PackageVersion :=
  s.filterSet.filterMap (fun d =>
    match getPackageByDigest s.repo d with
    | some ghPackage => if ghPackage.tags.length = 0 then some ghPackage else none
    | none => none)

/-- `CleanupTask.keepNtagged` (lines 701-741): sort the tagged digests of
`filterSet` by `updatedAt` descending, keep the first `n`, move the rest
(`splice(n)`) into `deleteSet`. -/
def keepNtagged (n : Nat) (s : CState) : CState :=
  let taggedPackages := sortByUpdatedDesc (collectTagged s)
  if taggedPackages.length > n then
    foldMoveOpt (fun p => some p.name) (taggedPackages.drop n) s
  else s

/-- `CleanupTask.keepNuntagged` (lines 656-699). -/
def keepNuntagged (n : Nat) (s : CState) : CState :=
  let unTaggedPackages := collectUntagged s
  if unTaggedPackages.length > 0 then
    let sorted := sortByUpdatedDesc unTaggedPackages
    if sorted.length > n then
      foldMoveOpt (fun p => some p.name) (sorted.drop n) s
    else s
  else s

/-- `CleanupTask.deleteUntagged` (lines 746-766): move every untagged digest
of `filterSet` into `deleteSet`. -/
def deleteUntagged (s : CState) : CState :=
  foldMoveOpt
    (fun d =>
      match getPackageByDigest s.repo d with
      | some ghPackage => if ghPackage.tags.length = 0 then some d else none
      | none => none)
    s.filterSet s

/-! ### Executor (`CleanupTask.deleteImage`, `doDelete`) -/

/-- One iteration of the children loop of `CleanupTask.deleteImage`
(lines 344-386): an existing, not-yet-deleted child is deleted iff its
`usedBy` set is exactly the parent being deleted; otherwise it is kept and
only the parent is dropped from its `usedBy` set. -/
def deleteChildrenStep (parent : PackageVersion) (acc : CState) (c : String) :
    CState :=
  match getPackageByDigest acc.repo c with
  | none => acc
  | some manifestPackage =>
    if manifestPackage.name ∈ acc.deleted then acc
    else
      match ubGet acc.usedBy manifestPackage.name with
      | some parents =>
        if parents.length = 1 ∧ parent.name ∈ parents then
          { acc with
            deleted := setAdd acc.deleted manifestPackage.name,
            log := acc.log ++ [(manifestPackage.id, manifestPackage.name, [])],
            usedBy := ubDel acc.usedBy manifestPackage.name }
        else
          { acc with
            usedBy := ubSet acc.usedBy manifestPackage.name
              (parents.filter (fun y => y ≠ parent.name)) }
      | none => acc

/-- The children loop of `CleanupTask.deleteImage`. -/
def deleteChildren (parent : PackageVersion)
    (children : List String) (s : CState) : CState :=
  children.foldl (deleteChildrenStep parent) s

/-- `CleanupTask.deleteImage` (lines 328-407): delete the package version,
then its children (for an index manifest), then recursively every package
whose tag starts with the parent's `sha256-` digest tag (referrers), unless
`excludeTags` contains that digest-tag prefix (note: the source compares
`digestTag`, not the tag itself).  `fuel` bounds the recursion depth (the
source guards it with the `deleted` set; any fuel above the number of live
versions is enough). -/
def deleteImage (reg : Reg) : Nat → CState → PackageVersion → CState
  | 0, s, _ => s
  | fuel + 1, s, ghPackage =>
    if ghPackage.name ∈ s.deleted then s
    else
      let manifest := reg ghPackage.name
      let s₁ := { s with
        deleted := setAdd s.deleted ghPackage.name,
        log := s.log ++ [(ghPackage.id, ghPackage.name, ghPackage.tags)] }
      let s₂ :=
        match manifest with
        | .index children => deleteChildren ghPackage children s₁
        | .image _ => s₁
      let digestTag := jsReplace ghPackage.name "sha256:" "sha256-"
      (getTags s₂.repo).foldl
        (fun acc tag =>
          if strStartsWith tag digestTag ∧ digestTag ∉ acc.excludeTags then
            match getDigestByTag acc.repo tag with
            | some manifestDigest =>
              match getPackageByDigest acc.repo manifestDigest with
              | some attestationPackage =>
                deleteImage reg fuel acc attestationPackage
              | none => acc
            | none => acc
          else acc)
        s₂

/-- `CleanupTask.doDelete` (lines 803-819): delete every digest of
`deleteSet` (`primeManifests` only warms the manifest cache and has no
observable effect here, manifests being a total function). -/
def doDelete (reg : Reg) (s : CState) : CState :=
  s.deleteSet.foldl
    (fun acc deleteDigest =>
      match getPackageByDigest acc.repo deleteDigest with
      | some pkg => deleteImage reg (acc.repo.length + 1) acc pkg
      | none => acc)
    s

/-! ### Delete-by-tag (`CleanupTask.deleteByTag`) and the untag protocol -/

/-- The `matchTags` list of `CleanupTask.deleteByTag` (lines 514-538): every
tag of a `filterSet` package matching the delete pattern, in iteration
order (a JS array, so duplicates are kept). -/
def buildMatchTags (m : String → Bool) (s : CState) : List String :=
  s.filterSet.foldl
    (fun acc d =>
      match getPackageByDigest s.repo d with
      | some ghPackage => acc ++ ghPackage.tags.filter m
      | none => acc)
    []

/-- One iteration of the pre-scan of `CleanupTask.deleteByTag`
(lines 544-559): a matched, non-excluded tag goes into the untagging set
when its target version has ≥ 2 tags and into the standard set when it has
exactly 1. -/
def preScanStep (repo : List PackageVersion) (excludeTags : List String)
    (acc : List String × List String) (tag : String) :
    List String × List String :=
  if tag ∉ excludeTags then
    match getDigestByTag repo tag with
    | some manifestDigest =>
      match getPackageByDigest repo manifestDigest with
      | some ghPackage =>
        if ghPackage.tags.length > 1 then (setAdd acc.1 tag, acc.2)
        else if ghPackage.tags.length = 1 then (acc.1, setAdd acc.2 tag)
        else acc
      | none => acc
    | none => acc
  else acc

/-- The pre-scan of `CleanupTask.deleteByTag`: partition the matched tags
into (untagging set, standard set). -/
def preScan (repo : List PackageVersion) (excludeTags : List String)
    (matchTags : List String) : List String × List String :=
  matchTags.foldl (preScanStep repo excludeTags) ([], [])

/-- The manifest clone of the untag protocol (lines 586-596):
`manifests = []` for an index, `layers = []` for an image. -/
def cloneCleared : Manifest → Manifest
  | .index _ => .index []
  | .image _ => .image []

/-- Remove one tag from a version's tag list, leaving other versions alone. -/
def stripTag (tag : String) (v : PackageVersion) : PackageVersion :=
  if tag ∈ v.tags then { v with tags := v.tags.filter (fun y => y ≠ tag) }
  else v

/-- Modelled from the spec (§4.6, §3 invariants): the ghcr.io side effect of
`Registry.putManifest(tag, manifest)` on the package listing — the registry
computes the new digest `d'` for the uploaded manifest and rebinds `tag` to
it, so the platform listing drops `tag` from its old carrier and a fresh
version (`fid`, `d'`) carrying exactly `tag` appears.  This is environment
behaviour, not repository code. -/
def putEffect (platform : List PackageVersion) (tag : String) (fid : Nat)
    (d' : String) : List PackageVersion :=
  (platform.map (stripTag tag)) ++ [⟨fid, d', [tag], 0⟩]

/-- Oracles for the external world during a run: the registry content, the
digest the registry computes for an uploaded manifest, the id the platform
assigns to the version created by untagging a tag, and which `putManifest`
calls fail. -/
structure Env where
  reg : Reg
  digestOfManifest : Manifest → String
  freshId : String → Nat
  putFails : String → Bool

/-- State threaded through the untagging loop: the live platform listing,
the (possibly stale) loaded snapshot the `PackageRepo` maps reflect, the
growing standard set, and the uploads (tag, manifest, multi-arch flag) and
version deletions performed. -/
structure UntagState where
  platform : List PackageVersion
  snapshot : List PackageVersion
  standardTags : List String
  uploads : List (String × Manifest × Bool)
  deletions : List (Nat × String × List String)
deriving Repr, DecidableEq

/-- Platform effect of `PackageRepo.deletePackageVersion` (by id). -/
def platformDelete (platform : List PackageVersion) (id : Nat) :
    List PackageVersion :=
  platform.filter (fun v => v.id ≠ id)

/-- One iteration of the untagging loop of `CleanupTask.deleteByTag`
(lines 566-621): recheck the tag count (reclassify as standard when it
dropped to 1), otherwise clone the manifest with contents cleared, upload it
under the tag (`putManifest` — a failure aborts, there is no catch), reload
the package maps, and delete the fresh version now carried by the tag. -/
def untagStep (env : Env) (st : UntagState) (tag : String) :
    Except UntagState UntagState :=
  match getDigestByTag st.snapshot tag with
  | none => .ok st
  | some manifestDigest =>
    match getPackageByDigest st.snapshot manifestDigest with
    | none => .ok st
    | some ghPackage =>
      if ghPackage.tags.length = 1 then
        .ok { st with standardTags := setAdd st.standardTags tag }
      else
        let manifest := env.reg manifestDigest
        let newManifest := cloneCleared manifest
        let multiArch := match newManifest with | .index _ => true | .image _ => false
        if env.putFails tag then .error st
        else
          let d' := env.digestOfManifest newManifest
          let fid := env.freshId tag
          let platform' := putEffect st.platform tag fid d'
          let st' := { st with
            platform := platform'
            snapshot := platform'
            uploads := st.uploads ++ [(tag, newManifest, multiArch)] }
          match getDigestByTag st'.snapshot tag with
          | some untaggedDigest =>
            match getIdByDigest st'.snapshot untaggedDigest with
            | some id =>
              .ok { st' with
                platform := platformDelete st'.platform id
                deletions := st'.deletions ++ [(id, untaggedDigest, [tag])] }
            | none => .ok st'
          | none => .ok st'

/-- The untagging loop over the untag set.  A thrown error propagates: the
remaining tags are not processed. -/
def untagLoop (env : Env) (tags : List String) (st : UntagState) :
    Except UntagState UntagState :=
  match tags with
  | [] => .ok st
  | t :: rest =>
    match untagStep env st t with
    | .error e => .error e
    | .ok st' => untagLoop env rest st'

/-- The structural options of `Config` that `CleanupTask.run` consults
(the two tag matchers stand for the compiled wildcard/regex patterns). -/
structure RunConfig where
  deleteTagsMatch : Option (String → Bool)
  excludeMatch : Option (String → Bool)
  deleteGhostImages : Bool
  deletePartialImages : Bool
  deleteOrphanedImages : Bool
  keepNtagged : Option Nat
  keepNuntagged : Option Nat
  deleteUntagged : Bool

/-- `CleanupTask.deleteByTag` (lines 512-654): build the match list,
pre-scan it into untag/standard sets, run the untagging loop, reload the
whole task state if any untagging happened, then move every standard tag's
target digest from `filterSet` into `deleteSet`. -/
def deleteByTag (env : Env) (cfg : RunConfig) (s : CState) :
    Except CState CState :=
  match cfg.deleteTagsMatch with
  | none => .ok s
  | some m =>
    let matchTags := buildMatchTags m s
    if matchTags.length > 0 then
      let scan := preScan s.repo s.excludeTags matchTags
      let untaggingTags := scan.1
      match untagLoop env untaggingTags
          { platform := s.repo, snapshot := s.repo, standardTags := scan.2,
            uploads := [], deletions := [] } with
      | .error ust => .error { s with repo := ust.platform }
      | .ok ust =>
        let s' :=
          if untaggingTags.length > 0 then
            reloadModel env.reg cfg.excludeMatch ust.platform
          else s
        .ok (foldMoveOpt (fun tag => getDigestByTag s'.repo tag)
          ust.standardTags s')
    else .ok s

/-- The selection phase of `CleanupTask.run` (lines 821-848): delete-by-tag,
then partial or ghost images, then orphaned referrers, then keep-n-tagged,
then keep-n-untagged or delete-untagged. -/
def runSelect (env : Env) (cfg : RunConfig) (s : CState) :
    Except CState CState :=
  match deleteByTag env cfg s with
  | .error e => .error e
  | .ok s =>
    let s :=
      if cfg.deletePartialImages then deletePartialImages env.reg s
      else if cfg.deleteGhostImages then deleteGhostImages env.reg s
      else s
    let s := if cfg.deleteOrphanedImages then deleteOrphanedImages s else s
    let s :=
      match cfg.keepNtagged with
      | some n => keepNtagged n s
      | none => s
    let s :=
      match cfg.keepNuntagged with
      | some n => keepNuntagged n s
      | none => if cfg.deleteUntagged then deleteUntagged s else s
    .ok s

/-- `CleanupTask.run`: selection then `doDelete`. -/
def runModel (env : Env) (cfg : RunConfig) (s : CState) :
    Except CState CState :=
  (runSelect env cfg s).map (doDelete env.reg)

/-- The per-package flow of the orchestrator (`main.ts` lines 71-76):
`reload()` then `run()`. -/
def cleanupModel (env : Env) (cfg : RunConfig) (repo : List PackageVersion) :
    Except CState CState :=
  runModel env cfg (reloadModel env.reg cfg.excludeMatch repo)

/-- Project the state out of a finished or failed run. -/
def runOutState : Except CState CState → CState
  | .ok s => s
  | .error s => s

/-! ### `PackageRepo.deletePackageVersion` error handling -/

/-- Outcome of one platform delete-version API call. -/
inductive DeleteApiResult where
  | ok
  | err404
  | errOther
deriving Repr, DecidableEq

/-- The error handling of `PackageRepo.deletePackageVersion` (lines 222-248)
around one API call, given the current `lastDeleteResult` field: returns the
new `lastDeleteResult` and whether the error propagates (re-thrown).  A
success records `lastDeleteResult = true`; a 404 is swallowed with a warning
exactly when `lastDeleteResult` was `true` (recording `false`); any other
error, and a 404 following a non-successful delete, is re-thrown.  The field
is initialised to `true` (`lastDeleteResult = true` at line 22). -/
def processDelete (lastDeleteResult : Bool) (r : DeleteApiResult) :
    Bool × Bool :=
  match r with
  | .ok => (true, false)
  | .err404 =>
    if lastDeleteResult then (false, false) else (lastDeleteResult, true)
  | .errOther => (lastDeleteResult, true)

/-- Folding `processDelete` over a sequence of API outcomes, stopping at the
first propagated error (the action fails): final field value and whether the
run failed. -/
def runDeletes : Bool → List DeleteApiResult → Bool × Bool
  | st, [] => (st, false)
  | st, r :: rest =>
    let p := processDelete st r
    if p.2 then (p.1, true) else runDeletes p.1 rest

/-! ### `buildConfig` defaulting of `delete-untagged` (`config.ts`) -/

/-- The raw action inputs `buildConfig` consults for the `delete-untagged`
defaulting rule (lines 424-439 of `config.ts`); `core.getInput` yields `""`
for an unset option, which is falsy in JS.  `deleteUntaggedBool` is the
parsed `getBooleanInput('delete-untagged')` value used when that input is
set. -/
structure ActionInputs where
  tags : String
  deleteTags : String
  deleteGhostImages : String
  deletePartialImages : String
  deleteOrphanedImages : String
  keepNuntagged : String
  keepNtagged : String
  deleteUntagged : String
  deleteUntaggedBool : Bool
deriving Repr, DecidableEq

/-- `config.deleteUntagged` as `buildConfig` leaves it: the explicit boolean
when the input is set; otherwise `some true` exactly when none of the seven
stage options is configured, and unset (`none` — JS `undefined`, falsy in
`CleanupTask.run`) otherwise. -/
def configDeleteUntagged (i : ActionInputs) : Option Bool :=
  if i.deleteUntagged ≠ "" then some i.deleteUntaggedBool
  else
    if i.tags = "" ∧ i.deleteTags = "" ∧ i.deleteGhostImages = "" ∧
        i.deletePartialImages = "" ∧ i.deleteOrphanedImages = "" ∧
        i.keepNuntagged = "" ∧ i.keepNtagged = "" then
      some true
    else none

/-! ### Generic lemmas -/

theorem foldl_invariant {α β : Type} (P : β → Prop) (f : β → α → β)
    (l : List α) (s : β) (h : ∀ b a, a ∈ l → P b → P (f b a)) (hs : P s) :
    P (l.foldl f s) := by
  induction l generalizing s with
  | nil => exact hs
  | cons x rest ih =>
    rw [List.foldl_cons]
    exact ih _ (fun b a ha hb => h b a (List.mem_cons_of_mem _ ha) hb)
      (h s x (List.mem_cons_self _ _) hs)

theorem insertDesc_perm (p : PackageVersion) (l : List PackageVersion) :
    (insertDesc p l).Perm (p :: l) := by
  induction l with
  | nil => exact List.Perm.refl _
  | cons q rest ih =>
    unfold insertDesc
    by_cases h : q.updatedAt < p.updatedAt
    · rw [if_pos h]
    · rw [if_neg h]
      exact (ih.cons q).trans (List.Perm.swap p q rest)

theorem sortByUpdatedDesc_perm (l : List PackageVersion) :
    (sortByUpdatedDesc l).Perm l := by
  suffices h : ∀ (l acc : List PackageVersion),
      (l.foldl (fun acc p => insertDesc p acc) acc).Perm (acc ++ l) by
    simpa using h l []
  intro l
  induction l with
  | nil => intro acc; simp
  | cons p rest ih =>
    intro acc
    rw [List.foldl_cons]
    exact (ih (insertDesc p acc)).trans
      (((insertDesc_perm p acc).append_right rest).trans List.perm_middle.symm)

theorem mem_sortByUpdatedDesc {l : List PackageVersion} {p : PackageVersion} :
    p ∈ sortByUpdatedDesc l ↔ p ∈ l :=
  (sortByUpdatedDesc_perm l).mem_iff

theorem length_sortByUpdatedDesc (l : List PackageVersion) :
    (sortByUpdatedDesc l).length = l.length :=
  (sortByUpdatedDesc_perm l).length_eq

/-- The comparator order: descending by `updatedAt`. -/
def descOrder (a b : PackageVersion) : Prop := b.updatedAt ≤ a.updatedAt

theorem insertDesc_pairwise {p : PackageVersion} {l : List PackageVersion}
    (hl : l.Pairwise descOrder)
    (h : ∀ q ∈ l, q.updatedAt ≤ p.updatedAt ∨ p.updatedAt ≤ q.updatedAt) :
    (insertDesc p l).Pairwise descOrder := by
  induction l with
  | nil => simp [insertDesc]
  | cons q rest ih =>
    unfold insertDesc
    by_cases hq : q.updatedAt < p.updatedAt
    · rw [if_pos hq]
      refine List.Pairwise.cons ?_ hl
      intro x hx
      rcases List.mem_cons.mp hx with rfl | hx'
      · exact le_of_lt hq
      · have := (List.pairwise_cons.mp hl).1 x hx'
        exact le_trans this (le_of_lt hq)
    · rw [if_neg hq]
      have hpq : p.updatedAt ≤ q.updatedAt := le_of_not_lt hq
      rcases List.pairwise_cons.mp hl with ⟨hqrest, hrest⟩
      refine List.Pairwise.cons ?_ (ih hrest
        (fun x hx => h x (List.mem_cons_of_mem _ hx)))
      intro x hx
      have := (insertDesc_perm p rest).mem_iff.mp hx
      rcases List.mem_cons.mp this with rfl | hx'
      · exact hpq
      · exact hqrest x hx'

theorem sortByUpdatedDesc_pairwise (l : List PackageVersion) :
    (sortByUpdatedDesc l).Pairwise descOrder := by
  unfold sortByUpdatedDesc
  refine foldl_invariant (fun acc => acc.Pairwise descOrder) _ l [] ?_ (by simp)
  intro acc p _ hacc
  refine insertDesc_pairwise hacc ?_
  intro q _
  exact Int.le_total q.updatedAt p.updatedAt

theorem list_eq_singleton_iff {ps : List String} {a : String} :
    ps = [a] ↔ ps.length = 1 ∧ a ∈ ps := by
  constructor
  · rintro rfl
    exact ⟨rfl, List.mem_singleton_self a⟩
  · rintro ⟨hlen, hmem⟩
    match ps, hlen with
    | [x], _ =>
      rcases List.mem_singleton.mp hmem with rfl
      rfl

/-! ### Lemmas about the executor -/

theorem find?_map_setval_self {k : String} {v : List String} :
    ∀ m : UsedByMap, m.any (fun p => p.1 == k) = true →
      (m.map (fun p => if p.1 == k then (k, v) else p)).find?
        (fun p => p.1 == k) = some (k, v) := by
  intro m
  induction m with
  | nil => intro h; simp at h
  | cons p rest ih =>
    intro h
    by_cases hp : p.1 = k
    · rw [List.map_cons, if_pos (by simp [hp]),
        List.find?_cons_of_pos _ (by simp)]
    · rw [List.map_cons, if_neg (by simp [hp]),
        List.find?_cons_of_neg _ (by simp [hp])]
      refine ih ?_
      rcases List.any_eq_true.mp h with ⟨q, hq, hqk⟩
      rcases List.mem_cons.mp hq with rfl | hq'
      · exact absurd (beq_iff_eq.mp hqk) hp
      · exact List.any_eq_true.mpr ⟨q, hq', hqk⟩

theorem find?_append_singleval_self {k : String} {v : List String} :
    ∀ m : UsedByMap, m.any (fun p => p.1 == k) = false →
      (m ++ [(k, v)]).find? (fun p => p.1 == k) = some (k, v) := by
  intro m
  induction m with
  | nil => intro _; exact List.find?_cons_of_pos _ (by simp)
  | cons p rest ih =>
    intro h
    rw [List.any_cons, Bool.or_eq_false_iff] at h
    rw [List.cons_append, List.find?_cons_of_neg _ (by simp [h.1])]
    exact ih h.2

theorem ubGet_ubSet_self (m : UsedByMap) (k : String) (v : List String) :
    ubGet (ubSet m k v) k = some v := by
  unfold ubGet ubSet
  by_cases hin : m.any (fun p => p.1 == k)
  · rw [if_pos hin, find?_map_setval_self m hin]; rfl
  · rw [if_neg hin, find?_append_singleval_self m (Bool.eq_false_iff.mpr hin)]; rfl

theorem deleteChildrenStep_repo (parent : PackageVersion) (acc : CState)
    (c : String) : (deleteChildrenStep parent acc c).repo = acc.repo := by
  unfold deleteChildrenStep
  cases getPackageByDigest acc.repo c with
  | none => rfl
  | some mp =>
    dsimp only
    by_cases hd : mp.name ∈ acc.deleted
    · rw [if_pos hd]
    · rw [if_neg hd]
      cases ubGet acc.usedBy mp.name with
      | none => rfl
      | some parents =>
        dsimp only
        by_cases hc : parents.length = 1 ∧ parent.name ∈ parents
        · rw [if_pos hc]
        · rw [if_neg hc]

theorem deleteChildrenStep_excludeTags (parent : PackageVersion) (acc : CState)
    (c : String) :
    (deleteChildrenStep parent acc c).excludeTags = acc.excludeTags := by
  unfold deleteChildrenStep
  cases getPackageByDigest acc.repo c with
  | none => rfl
  | some mp =>
    dsimp only
    by_cases hd : mp.name ∈ acc.deleted
    · rw [if_pos hd]
    · rw [if_neg hd]
      cases ubGet acc.usedBy mp.name with
      | none => rfl
      | some parents =>
        dsimp only
        by_cases hc : parents.length = 1 ∧ parent.name ∈ parents
        · rw [if_pos hc]
        · rw [if_neg hc]

theorem deleteChildrenStep_deleted_mono {parent : PackageVersion}
    {acc : CState} {c x : String} (hx : x ∈ acc.deleted) :
    x ∈ (deleteChildrenStep parent acc c).deleted := by
  unfold deleteChildrenStep
  cases getPackageByDigest acc.repo c with
  | none => exact hx
  | some mp =>
    dsimp only
    by_cases hd : mp.name ∈ acc.deleted
    · rw [if_pos hd]; exact hx
    · rw [if_neg hd]
      cases ubGet acc.usedBy mp.name with
      | none => exact hx
      | some parents =>
        dsimp only
        by_cases hc : parents.length = 1 ∧ parent.name ∈ parents
        · rw [if_pos hc]
          exact setAdd_mem.mpr (Or.inl hx)
        · rw [if_neg hc]; exact hx

/-- Processing a child other than `c` does not change whether `c` is deleted
nor `c`'s `usedBy` entry. -/
theorem deleteChildrenStep_pres {parent : PackageVersion} {acc : CState}
    {cc c : String} (hne : cc ≠ c) :
    (c ∈ (deleteChildrenStep parent acc cc).deleted ↔ c ∈ acc.deleted) ∧
    ubGet (deleteChildrenStep parent acc cc).usedBy c = ubGet acc.usedBy c := by
  unfold deleteChildrenStep
  cases h : getPackageByDigest acc.repo cc with
  | none => exact ⟨Iff.rfl, rfl⟩
  | some mp =>
    dsimp only
    have hname : mp.name = cc := getPackageByDigest_name h
    have hcne : c ≠ mp.name := fun hh => hne (hh ▸ hname).symm
    by_cases hd : mp.name ∈ acc.deleted
    · rw [if_pos hd]; exact ⟨Iff.rfl, rfl⟩
    · rw [if_neg hd]
      cases ubGet acc.usedBy mp.name with
      | none => exact ⟨Iff.rfl, rfl⟩
      | some parents =>
        dsimp only
        by_cases hc : parents.length = 1 ∧ parent.name ∈ parents
        · rw [if_pos hc]
          refine ⟨?_, ubGet_ubDel_ne hcne _⟩
          rw [setAdd_mem]
          exact ⟨fun hh => hh.resolve_right (fun hcc => hcne hcc),
            Or.inl⟩
        · rw [if_neg hc]
          exact ⟨Iff.rfl, ubGet_ubSet_ne hcne _⟩

theorem deleteChildren_repo (parent : PackageVersion) (cs : List String)
    (acc : CState) : (deleteChildren parent cs acc).repo = acc.repo := by
  unfold deleteChildren
  refine foldl_invariant (fun b => b.repo = acc.repo) _ cs acc ?_ rfl
  intro b a _ hb
  rw [deleteChildrenStep_repo, hb]

theorem deleteChildren_excludeTags (parent : PackageVersion) (cs : List String)
    (acc : CState) :
    (deleteChildren parent cs acc).excludeTags = acc.excludeTags := by
  unfold deleteChildren
  refine foldl_invariant (fun b => b.excludeTags = acc.excludeTags) _ cs acc ?_ rfl
  intro b a _ hb
  rw [deleteChildrenStep_excludeTags, hb]

theorem deleteChildren_deleted_mono {parent : PackageVersion}
    {cs : List String} {acc : CState} {x : String} (hx : x ∈ acc.deleted) :
    x ∈ (deleteChildren parent cs acc).deleted := by
  unfold deleteChildren
  exact foldl_invariant (fun (b : CState) => x ∈ b.deleted) _ cs acc
    (fun b a _ hb => deleteChildrenStep_deleted_mono hb) hx

theorem deleteChildren_pres {parent : PackageVersion} {c : String} :
    ∀ (cs : List String) (acc : CState), (∀ x ∈ cs, x ≠ c) →
      (c ∈ (deleteChildren parent cs acc).deleted ↔ c ∈ acc.deleted) ∧
      ubGet (deleteChildren parent cs acc).usedBy c = ubGet acc.usedBy c := by
  intro cs
  induction cs with
  | nil => intro acc _; exact ⟨Iff.rfl, rfl⟩
  | cons x rest ih =>
    intro acc hne
    unfold deleteChildren at *
    rw [List.foldl_cons]
    have hx : x ≠ c := hne x (List.mem_cons_self _ _)
    have hstep := @deleteChildrenStep_pres parent acc _ _ hx
    have hrest := ih (deleteChildrenStep parent acc x)
      (fun y hy => hne y (List.mem_cons_of_mem _ hy))
    exact ⟨hrest.1.trans hstep.1, hrest.2.trans hstep.2⟩

/-- The heart of the children loop: an existing child `c`, not deleted yet
and occurring once in the children list, is deleted iff its `usedBy` entry is
exactly the parent's digest; otherwise the entry merely loses the parent. -/
theorem deleteChildren_child_spec {parent : PackageVersion} {c : String}
    {cp : PackageVersion} {ps : List String} :
    ∀ (cs : List String) (acc : CState), cs.Nodup → c ∈ cs →
      getPackageByDigest acc.repo c = some cp →
      c ∉ acc.deleted →
      ubGet acc.usedBy c = some ps →
      ((c ∈ (deleteChildren parent cs acc).deleted ↔ ps = [parent.name]) ∧
        (ps ≠ [parent.name] →
          ubGet (deleteChildren parent cs acc).usedBy c =
            some (ps.filter (fun y => y ≠ parent.name)) ∧
          c ∉ (deleteChildren parent cs acc).deleted)) := by
  intro cs
  induction cs with
  | nil => intro acc _ hc; exact absurd hc (List.not_mem_nil c)
  | cons x rest ih =>
    intro acc hnodup hc hcp hcnot hub
    rcases List.mem_cons.mp hc with rfl | hcrest
    · -- the head is `c`: its step fires now, the rest leaves `c` alone
      have hrest_ne : ∀ y ∈ rest, y ≠ c :=
        fun y hy hyc => (List.nodup_cons.mp hnodup).1 (hyc ▸ hy)
      have hname : cp.name = c := getPackageByDigest_name hcp
      have hstep : deleteChildrenStep parent acc c =
          (if ps.length = 1 ∧ parent.name ∈ ps then
            { acc with
              deleted := setAdd acc.deleted cp.name,
              log := acc.log ++ [(cp.id, cp.name, [])],
              usedBy := ubDel acc.usedBy cp.name }
          else
            { acc with
              usedBy := ubSet acc.usedBy cp.name
                (ps.filter (fun y => y ≠ parent.name)) }) := by
        have hub' : ubGet acc.usedBy cp.name = some ps := by
          rw [hname]; exact hub
        unfold deleteChildrenStep
        rw [hcp]
        dsimp only
        rw [if_neg (by rw [hname]; exact hcnot), hub']
      unfold deleteChildren
      rw [List.foldl_cons]
      show _ ∧ _
      rw [show List.foldl (deleteChildrenStep parent) (deleteChildrenStep parent acc c) rest =
        deleteChildren parent rest (deleteChildrenStep parent acc c) from rfl]
      have hpres := @deleteChildren_pres parent c rest
        (deleteChildrenStep parent acc c) hrest_ne
      by_cases hcond : ps.length = 1 ∧ parent.name ∈ ps
      · have hsingle : ps = [parent.name] := list_eq_singleton_iff.mpr hcond
        rw [hstep, if_pos hcond]
        constructor
        · refine ⟨fun _ => hsingle, fun _ => ?_⟩
          refine deleteChildren_deleted_mono ?_
          rw [hname]
          exact mem_setAdd_self _ _
        · intro hne; exact absurd hsingle hne
      · have hne : ps ≠ [parent.name] :=
          fun hh => hcond (list_eq_singleton_iff.mp hh)
        rw [hstep, if_neg hcond]
        have hdel := hpres.1
        have hubq := hpres.2
        rw [hstep, if_neg hcond] at hdel hubq
        constructor
        · rw [hdel]
          exact ⟨fun hh => absurd hh hcnot, fun hh => absurd hh hne⟩
        · intro _
          refine ⟨?_, by rw [hdel]; exact hcnot⟩
          rw [hubq]
          show ubGet (ubSet acc.usedBy cp.name _) c = _
          rw [hname]
          exact ubGet_ubSet_self _ _ _
    · -- the head is some other child: its step preserves the facts on `c`
      have hx : x ≠ c := by
        intro rfl'
        exact (List.nodup_cons.mp hnodup).1 (rfl' ▸ hcrest)
      have hstep := @deleteChildrenStep_pres parent acc _ _ hx
      unfold deleteChildren
      rw [List.foldl_cons]
      have := ih (deleteChildrenStep parent acc x)
        (List.nodup_cons.mp hnodup).2 hcrest
        (by rw [deleteChildrenStep_repo]; exact hcp)
        (fun hh => hcnot (hstep.1.mp hh))
        (hstep.2.trans hub)
      exact this

theorem deleteImage_repo (reg : Reg) :
    ∀ (fuel : Nat) (s : CState) (pkg : PackageVersion),
      (deleteImage reg fuel s pkg).repo = s.repo := by
  intro fuel
  induction fuel with
  | zero => intro s pkg; rfl
  | succ fuel ih =>
    intro s pkg
    simp only [deleteImage]
    by_cases hdel : pkg.name ∈ s.deleted
    · rw [if_pos hdel]
    · rw [if_neg hdel]
      refine foldl_invariant (fun (b : CState) => b.repo = s.repo) _ _ _ ?_ ?_
      · intro b a _ hb
        by_cases hg : strStartsWith a (jsReplace pkg.name "sha256:" "sha256-") ∧
            (jsReplace pkg.name "sha256:" "sha256-") ∉ b.excludeTags
        · rw [if_pos hg]
          cases getDigestByTag b.repo a with
          | none => exact hb
          | some md =>
            dsimp only
            cases getPackageByDigest b.repo md with
            | none => exact hb
            | some ap =>
              dsimp only
              rw [ih b ap]
              exact hb
        · rw [if_neg hg]; exact hb
      · cases reg pkg.name with
        | index children =>
          dsimp only
          rw [deleteChildren_repo]
        | image layers => rfl

theorem deleteImage_deleted_mono (reg : Reg) :
    ∀ (fuel : Nat) (s : CState) (pkg : PackageVersion) (x : String),
      x ∈ s.deleted → x ∈ (deleteImage reg fuel s pkg).deleted := by
  intro fuel
  induction fuel with
  | zero => intro s pkg x hx; exact hx
  | succ fuel ih =>
    intro s pkg x hx
    simp only [deleteImage]
    by_cases hdel : pkg.name ∈ s.deleted
    · rw [if_pos hdel]; exact hx
    · rw [if_neg hdel]
      refine foldl_invariant (fun (b : CState) => x ∈ b.deleted) _ _ _ ?_ ?_
      · intro b a _ hb
        by_cases hg : strStartsWith a (jsReplace pkg.name "sha256:" "sha256-") ∧
            (jsReplace pkg.name "sha256:" "sha256-") ∉ b.excludeTags
        · rw [if_pos hg]
          cases getDigestByTag b.repo a with
          | none => exact hb
          | some md =>
            dsimp only
            cases getPackageByDigest b.repo md with
            | none => exact hb
            | some ap =>
              dsimp only
              exact ih b ap x hb
        · rw [if_neg hg]; exact hb
      · cases reg pkg.name with
        | index children =>
          dsimp only
          exact deleteChildren_deleted_mono (setAdd_mem.mpr (Or.inl hx))
        | image layers => exact setAdd_mem.mpr (Or.inl hx)

theorem deleteImage_self (reg : Reg) (fuel : Nat) (s : CState)
    (pkg : PackageVersion) :
    pkg.name ∈ (deleteImage reg (fuel + 1) s pkg).deleted := by
  simp only [deleteImage]
  by_cases hdel : pkg.name ∈ s.deleted
  · rw [if_pos hdel]; exact hdel
  · rw [if_neg hdel]
    refine foldl_invariant (fun (b : CState) => pkg.name ∈ b.deleted) _ _ _ ?_ ?_
    · intro b a _ hb
      by_cases hg : strStartsWith a (jsReplace pkg.name "sha256:" "sha256-") ∧
          (jsReplace pkg.name "sha256:" "sha256-") ∉ b.excludeTags
      · rw [if_pos hg]
        cases getDigestByTag b.repo a with
        | none => exact hb
        | some md =>
          dsimp only
          cases getPackageByDigest b.repo md with
          | none => exact hb
          | some ap =>
            dsimp only
            exact deleteImage_deleted_mono reg fuel b ap _ hb
      · rw [if_neg hg]; exact hb
    · cases reg pkg.name with
      | index children =>
        dsimp only
        exact deleteChildren_deleted_mono (mem_setAdd_self _ _)
      | image layers => exact mem_setAdd_self _ _

theorem doDelete_deleted_mono (reg : Reg) (s : CState) (x : String)
    (hx : x ∈ s.deleted) : x ∈ (doDelete reg s).deleted := by
  unfold doDelete
  refine foldl_invariant (fun (b : CState) => x ∈ b.deleted) _ _ _ ?_ hx
  intro b a _ hb
  cases getPackageByDigest b.repo a with
  | none => exact hb
  | some pkg =>
    dsimp only
    exact deleteImage_deleted_mono reg _ b pkg x hb

theorem doDelete_fold_mono (reg : Reg) (ds : List String) (acc : CState)
    (x : String) (hx : x ∈ acc.deleted) :
    x ∈ (ds.foldl
      (fun acc deleteDigest =>
        match getPackageByDigest acc.repo deleteDigest with
        | some pkg => deleteImage reg (acc.repo.length + 1) acc pkg
        | none => acc) acc).deleted := by
  refine foldl_invariant (fun (b : CState) => x ∈ b.deleted) _ _ _ ?_ hx
  intro b a _ hb
  cases getPackageByDigest b.repo a with
  | none => exact hb
  | some pkg =>
    dsimp only
    exact deleteImage_deleted_mono reg _ b pkg x hb

/-- Every digest of `deleteSet` that exists as a package version ends up in
`deleted` after `doDelete`. -/
theorem doDelete_deletes (reg : Reg) (s : CState) (dd : String)
    (p : PackageVersion) (hdd : dd ∈ s.deleteSet)
    (hp : getPackageByDigest s.repo dd = some p) :
    dd ∈ (doDelete reg s).deleted := by
  unfold doDelete
  suffices h : ∀ (ds : List String) (acc : CState), acc.repo = s.repo →
      dd ∈ ds →
      dd ∈ (ds.foldl
        (fun acc deleteDigest =>
          match getPackageByDigest acc.repo deleteDigest with
          | some pkg => deleteImage reg (acc.repo.length + 1) acc pkg
          | none => acc) acc).deleted from
    h s.deleteSet s rfl hdd
  intro ds
  induction ds with
  | nil => intro acc _ hmem; exact absurd hmem (List.not_mem_nil dd)
  | cons x rest ih =>
    intro acc hrepo hmem
    rw [List.foldl_cons]
    by_cases hx : dd = x
    · subst hx
      have hp' : getPackageByDigest acc.repo dd = some p := by
        rw [hrepo]; exact hp
      rw [hp']
      dsimp only
      refine doDelete_fold_mono reg rest _ dd ?_
      have hname : p.name = dd := getPackageByDigest_name hp
      have := deleteImage_self reg acc.repo.length acc p
      rwa [hname] at this
    · have hrest : dd ∈ rest := (List.mem_cons.mp hmem).resolve_left hx
      refine ih _ ?_ hrest
      cases getPackageByDigest acc.repo x with
      | none => exact hrepo
      | some pkg =>
        dsimp only
        rw [deleteImage_repo]
        exact hrepo

/-! ### Lemmas about the selection stages -/

/-- Number of tags on the version a tag currently resolves to. -/
def tagTargetTagCount (repo : List PackageVersion) (tag : String) :
    Option Nat :=
  match getDigestByTag repo tag with
  | some d => (getPackageByDigest repo d).map (fun p => p.tags.length)
  | none => none

theorem preScanStep_untag_mem (repo : List PackageVersion) (ex : List String)
    (acc : List String × List String) (tag t : String) :
    t ∈ (preScanStep repo ex acc tag).1 ↔
      t ∈ acc.1 ∨ (t = tag ∧ tag ∉ ex ∧
        ∃ n, tagTargetTagCount repo tag = some n ∧ 1 < n) := by
  unfold preScanStep tagTargetTagCount
  by_cases hex : tag ∉ ex
  · rw [if_pos hex]
    cases hd : getDigestByTag repo tag with
    | none => simp
    | some d =>
      dsimp only
      cases hpkg : getPackageByDigest repo d with
      | none => simp
      | some pk =>
        dsimp only
        by_cases h1 : pk.tags.length > 1
        · rw [if_pos h1]
          simp only [setAdd_mem, Option.map_some']
          constructor
          · rintro (hh | rfl)
            · exact Or.inl hh
            · exact Or.inr ⟨rfl, hex, pk.tags.length, rfl, h1⟩
          · rintro (hh | ⟨rfl, -, n, hn, h1'⟩)
            · exact Or.inl hh
            · exact Or.inr rfl
        · rw [if_neg h1]
          have hfst : (if pk.tags.length = 1 then (acc.1, setAdd acc.2 tag)
              else acc).1 = acc.1 := by
            by_cases he : pk.tags.length = 1
            · rw [if_pos he]
            · rw [if_neg he]
          rw [hfst]
          simp only [Option.map_some', Option.some_inj]
          constructor
          · exact Or.inl
          · rintro (hh | ⟨rfl, -, n, hn, h1'⟩)
            · exact hh
            · exact absurd (hn ▸ h1') h1
  · rw [if_neg hex]
    constructor
    · exact Or.inl
    · rintro (hh | ⟨rfl, hex', -⟩)
      · exact hh
      · exact absurd hex' hex

theorem preScanStep_std_mem (repo : List PackageVersion) (ex : List String)
    (acc : List String × List String) (tag t : String) :
    t ∈ (preScanStep repo ex acc tag).2 ↔
      t ∈ acc.2 ∨ (t = tag ∧ tag ∉ ex ∧
        tagTargetTagCount repo tag = some 1) := by
  unfold preScanStep tagTargetTagCount
  by_cases hex : tag ∉ ex
  · rw [if_pos hex]
    cases hd : getDigestByTag repo tag with
    | none => simp
    | some d =>
      dsimp only
      cases hpkg : getPackageByDigest repo d with
      | none => simp
      | some pk =>
        dsimp only
        by_cases h1 : pk.tags.length > 1
        · rw [if_pos h1]
          simp only [Option.map_some', Option.some_inj]
          constructor
          · exact Or.inl
          · rintro (hh | ⟨rfl, -, hn⟩)
            · exact hh
            · exact absurd hn (by omega)
        · rw [if_neg h1]
          by_cases he : pk.tags.length = 1
          · rw [if_pos he]
            simp only [setAdd_mem, Option.map_some', Option.some_inj]
            constructor
            · rintro (hh | rfl)
              · exact Or.inl hh
              · exact Or.inr ⟨rfl, hex, he⟩
            · rintro (hh | ⟨rfl, -, -⟩)
              · exact Or.inl hh
              · exact Or.inr rfl
          · rw [if_neg he]
            simp only [Option.map_some', Option.some_inj]
            constructor
            · exact Or.inl
            · rintro (hh | ⟨rfl, -, hn⟩)
              · exact hh
              · exact absurd hn he
  · rw [if_neg hex]
    constructor
    · exact Or.inl
    · rintro (hh | ⟨rfl, hex', -⟩)
      · exact hh
      · exact absurd hex' hex

theorem preScan_fold_untag_mem (repo : List PackageVersion) (ex : List String) :
    ∀ (ts : List String) (acc : List String × List String) (t : String),
      t ∈ (ts.foldl (preScanStep repo ex) acc).1 ↔
        t ∈ acc.1 ∨ (t ∈ ts ∧ t ∉ ex ∧
          ∃ n, tagTargetTagCount repo t = some n ∧ 1 < n) := by
  intro ts
  induction ts with
  | nil => simp
  | cons tag rest ih =>
    intro acc t
    rw [List.foldl_cons, ih, preScanStep_untag_mem]
    constructor
    · rintro ((hh | ⟨rfl, hex, hn⟩) | ⟨hmem, hex, hn⟩)
      · exact Or.inl hh
      · exact Or.inr ⟨List.mem_cons_self _ _, hex, hn⟩
      · exact Or.inr ⟨List.mem_cons_of_mem _ hmem, hex, hn⟩
    · rintro (hh | ⟨hmem, hex, hn⟩)
      · exact Or.inl (Or.inl hh)
      · rcases List.mem_cons.mp hmem with rfl | hmem'
        · exact Or.inl (Or.inr ⟨rfl, hex, hn⟩)
        · exact Or.inr ⟨hmem', hex, hn⟩

theorem preScan_fold_std_mem (repo : List PackageVersion) (ex : List String) :
    ∀ (ts : List String) (acc : List String × List String) (t : String),
      t ∈ (ts.foldl (preScanStep repo ex) acc).2 ↔
        t ∈ acc.2 ∨ (t ∈ ts ∧ t ∉ ex ∧
          tagTargetTagCount repo t = some 1) := by
  intro ts
  induction ts with
  | nil => simp
  | cons tag rest ih =>
    intro acc t
    rw [List.foldl_cons, ih, preScanStep_std_mem]
    constructor
    · rintro ((hh | ⟨rfl, hex, hn⟩) | ⟨hmem, hex, hn⟩)
      · exact Or.inl hh
      · exact Or.inr ⟨List.mem_cons_self _ _, hex, hn⟩
      · exact Or.inr ⟨List.mem_cons_of_mem _ hmem, hex, hn⟩
    · rintro (hh | ⟨hmem, hex, hn⟩)
      · exact Or.inl (Or.inl hh)
      · rcases List.mem_cons.mp hmem with rfl | hmem'
        · exact Or.inl (Or.inr ⟨rfl, hex, hn⟩)
        · exact Or.inr ⟨hmem', hex, hn⟩

theorem collectTagged_mem {s : CState} {p : PackageVersion} :
    p ∈ collectTagged s ↔
      ∃ d ∈ s.filterSet, getPackageByDigest s.repo d = some p ∧
        p.tags.length > 0 := by
  unfold collectTagged
  rw [List.mem_filterMap]
  constructor
  · rintro ⟨d, hd, hF⟩
    cases hgp : getPackageByDigest s.repo d with
    | none => rw [hgp] at hF; exact absurd hF (by simp)
    | some q =>
      rw [hgp] at hF
      dsimp only at hF
      by_cases hq : q.tags.length > 0
      · rw [if_pos hq] at hF
        rcases Option.some_inj.mp hF with rfl
        exact ⟨d, hd, hgp, hq⟩
      · rw [if_neg hq] at hF; exact absurd hF (by simp)
  · rintro ⟨d, hd, hgp, hq⟩
    refine ⟨d, hd, ?_⟩
    rw [hgp]
    dsimp only
    rw [if_pos hq]

theorem collectUntagged_mem {s : CState} {p : PackageVersion} :
    p ∈ collectUntagged s ↔
      ∃ d ∈ s.filterSet, getPackageByDigest s.repo d = some p ∧
        p.tags.length = 0 := by
  unfold collectUntagged
  rw [List.mem_filterMap]
  constructor
  · rintro ⟨d, hd, hF⟩
    cases hgp : getPackageByDigest s.repo d with
    | none => rw [hgp] at hF; exact absurd hF (by simp)
    | some q =>
      rw [hgp] at hF
      dsimp only at hF
      by_cases hq : q.tags.length = 0
      · rw [if_pos hq] at hF
        rcases Option.some_inj.mp hF with rfl
        exact ⟨d, hd, hgp, hq⟩
      · rw [if_neg hq] at hF; exact absurd hF (by simp)
  · rintro ⟨d, hd, hgp, hq⟩
    refine ⟨d, hd, ?_⟩
    rw [hgp]
    dsimp only
    rw [if_pos hq]

theorem collectTagged_name_mem {s : CState} {p : PackageVersion}
    (hp : p ∈ collectTagged s) : p.name ∈ s.filterSet := by
  rcases collectTagged_mem.mp hp with ⟨d, hd, hgp, -⟩
  rw [getPackageByDigest_name hgp]
  exact hd

theorem collectUntagged_name_mem {s : CState} {p : PackageVersion}
    (hp : p ∈ collectUntagged s) : p.name ∈ s.filterSet := by
  rcases collectUntagged_mem.mp hp with ⟨d, hd, hgp, -⟩
  rw [getPackageByDigest_name hgp]
  exact hd

theorem collectTagged_names_sublist (s : CState) :
    ((collectTagged s).map (·.name)).Sublist s.filterSet := by
  unfold collectTagged
  generalize s.filterSet = l
  induction l with
  | nil => simp
  | cons d rest ih =>
    rw [List.filterMap_cons]
    cases hgp : getPackageByDigest s.repo d with
    | none => exact ih.cons d
    | some q =>
      dsimp only
      by_cases hq : q.tags.length > 0
      · rw [if_pos hq, List.map_cons, getPackageByDigest_name hgp]
        exact ih.cons₂ d
      · rw [if_neg hq]
        exact ih.cons d

/-- The exclude processing of `reload` removes the digest of every matching
tag from `filterSet`, and nothing is ever added back by that loop. -/
theorem excludeReload_removes (m : String → Bool) (s : CState) (t d : String)
    (hm : m t = true) (ht : t ∈ getTags s.repo)
    (hd : getDigestByTag s.repo t = some d) :
    d ∉ (excludeReload m s).filterSet := by
  unfold excludeReload
  rcases List.append_of_mem ht with ⟨l₁, l₂, heq⟩
  rw [heq, List.foldl_append, List.foldl_cons]
  refine foldl_invariant (fun (b : CState) => d ∉ b.filterSet) _ l₂ _ ?_ ?_
  · intro b a _ hb
    by_cases hma : m a
    · rw [if_pos hma]
      cases getDigestByTag s.repo a with
      | none => exact hb
      | some dig =>
        dsimp only
        intro hmem
        exact hb (mem_of_mem_setDel hmem)
    · rw [if_neg hma]; exact hb
  · rw [if_pos hm, hd]
    dsimp only
    intro hmem
    exact absurd (setDel_mem.mp hmem).2 (by simp)

/-! ### Claim theorems -/

/-- C5: `deletePackageVersion` suppresses (with a warning) exactly one 404
error when the previous delete attempt was successful — after a success the
`lastDeleteResult` field is `true` and an immediately following 404 yields no
error while setting the field to `false` — whereas a 404 with the field
`false` (the previous attempt was not a success) propagates, as does every
non-404 error regardless of the field; in particular a success followed by
two consecutive 404s fails the run at the second 404. -/
theorem c5_delete_404_tolerance :
    (∀ st : Bool, processDelete st .ok = (true, false)) ∧
    processDelete true .err404 = (false, false) ∧
    (processDelete false .err404).2 = true ∧
    (∀ st : Bool, (processDelete st .errOther).2 = true) ∧
    (∀ rest : List DeleteApiResult,
      runDeletes true (.ok :: .err404 :: .err404 :: rest) = (false, true)) :=
  ⟨fun _ => rfl, rfl, rfl, fun _ => rfl, fun _ => rfl⟩

/-- C9: when the `delete-untagged` input is not given, `buildConfig` leaves
`config.deleteUntagged` as `some true` exactly when none of `tags`,
`delete-tags`, `delete-ghost-images`, `delete-partial-images`,
`delete-orphaned-images`, `keep-n-untagged` and `keep-n-tagged` is
configured; if any of them is configured it stays unset (`none`), so
untagged images are not deleted by default. -/
theorem c9_delete_untagged_default (i : ActionInputs)
    (hunset : i.deleteUntagged = "") :
    (configDeleteUntagged i = some true ↔
      i.tags = "" ∧ i.deleteTags = "" ∧ i.deleteGhostImages = "" ∧
      i.deletePartialImages = "" ∧ i.deleteOrphanedImages = "" ∧
      i.keepNuntagged = "" ∧ i.keepNtagged = "") ∧
    (¬(i.tags = "" ∧ i.deleteTags = "" ∧ i.deleteGhostImages = "" ∧
        i.deletePartialImages = "" ∧ i.deleteOrphanedImages = "" ∧
        i.keepNuntagged = "" ∧ i.keepNtagged = "") →
      configDeleteUntagged i = none) := by
  unfold configDeleteUntagged
  rw [if_neg (by simp [hunset])]
  constructor
  · by_cases h : i.tags = "" ∧ i.deleteTags = "" ∧ i.deleteGhostImages = "" ∧
        i.deletePartialImages = "" ∧ i.deleteOrphanedImages = "" ∧
        i.keepNuntagged = "" ∧ i.keepNtagged = ""
    · rw [if_pos h]
      exact ⟨fun _ => h, fun _ => rfl⟩
    · rw [if_neg h]
      exact ⟨fun hc => absurd hc (by simp), fun hc => absurd hc h⟩
  · intro hn
    rw [if_neg hn]

/-- Witness for C9 at concrete inputs. -/
theorem c9_witness :
    configDeleteUntagged ⟨"", "", "", "", "", "", "", "", false⟩ = some true ∧
    configDeleteUntagged ⟨"v*", "", "", "", "", "", "", "", false⟩ = none :=
  ⟨((c9_delete_untagged_default ⟨"", "", "", "", "", "", "", "", false⟩
      rfl).1).mpr ⟨rfl, rfl, rfl, rfl, rfl, rfl, rfl⟩,
    (c9_delete_untagged_default ⟨"v*", "", "", "", "", "", "", "", false⟩
      rfl).2 (by simp)⟩

/-- C10: each selection stage that adds a digest to `deleteSet` removes it
from `filterSet` in the same step, so the two sets stay disjoint through the
delete-by-tag standard handling, ghost, partial, orphan, keep-N-tagged,
keep-N-untagged and delete-untagged stages. -/
theorem c10_filter_delete_disjoint (reg : Reg) (s : CState) (n k : Nat)
    (ts : List String)
    (h : ∀ x, x ∈ s.filterSet → x ∉ s.deleteSet) :
    (∀ x, x ∈ (deleteGhostImages reg s).filterSet →
        x ∉ (deleteGhostImages reg s).deleteSet) ∧
    (∀ x, x ∈ (deletePartialImages reg s).filterSet →
        x ∉ (deletePartialImages reg s).deleteSet) ∧
    (∀ x, x ∈ (deleteOrphanedImages s).filterSet →
        x ∉ (deleteOrphanedImages s).deleteSet) ∧
    (∀ x, x ∈ (keepNtagged n s).filterSet → x ∉ (keepNtagged n s).deleteSet) ∧
    (∀ x, x ∈ (keepNuntagged k s).filterSet →
        x ∉ (keepNuntagged k s).deleteSet) ∧
    (∀ x, x ∈ (deleteUntagged s).filterSet → x ∉ (deleteUntagged s).deleteSet) ∧
    (∀ x, x ∈ (foldMoveOpt (fun tag => getDigestByTag s.repo tag) ts s).filterSet →
        x ∉ (foldMoveOpt (fun tag => getDigestByTag s.repo tag) ts s).deleteSet) := by
  refine ⟨foldMoveOpt_disjoint _ _ _ h, foldMoveOpt_disjoint _ _ _ h,
    foldMoveOpt_disjoint _ _ _ h, ?_, ?_, foldMoveOpt_disjoint _ _ _ h,
    foldMoveOpt_disjoint _ _ _ h⟩
  · unfold keepNtagged
    by_cases hlen : (sortByUpdatedDesc (collectTagged s)).length > n
    · rw [if_pos hlen]
      exact foldMoveOpt_disjoint _ _ _ h
    · rw [if_neg hlen]
      exact h
  · unfold keepNuntagged
    by_cases hu : (collectUntagged s).length > 0
    · rw [if_pos hu]
      by_cases hlen : (sortByUpdatedDesc (collectUntagged s)).length > k
      · rw [if_pos hlen]
        exact foldMoveOpt_disjoint _ _ _ h
      · rw [if_neg hlen]
        exact h
    · rw [if_neg hu]
      exact h

/-- Witness for C10 at a concrete state. -/
theorem c10_witness :
    ("sha256:a" ∈ (deleteGhostImages (fun _ => Manifest.image [])
      ⟨[⟨1, "sha256:a", ["t"], 0⟩], ["sha256:a"], [], [], [], [], []⟩).filterSet) ∧
    ("sha256:a" ∉ (deleteGhostImages (fun _ => Manifest.image [])
      ⟨[⟨1, "sha256:a", ["t"], 0⟩], ["sha256:a"], [], [], [], [], []⟩).deleteSet) :=
  ⟨by decide,
    (c10_filter_delete_disjoint (fun _ => Manifest.image [])
      ⟨[⟨1, "sha256:a", ["t"], 0⟩], ["sha256:a"], [], [], [], [], []⟩ 0 0 []
      (fun x _ hmem => List.not_mem_nil x hmem)).1 "sha256:a" (by decide)⟩

/-- C8: with no other structural option, running the selection pipeline with
`keepNuntagged = 0` marks exactly the same digests for deletion as running it
with `deleteUntagged = true`: in both runs every untagged digest of
`filterSet` moves to `deleteSet` (membership of `deleteSet` and `filterSet`
agree pointwise after the two runs). -/
theorem c8_keepNuntagged_zero_eq_deleteUntagged (env : Env) (s : CState)
    (d : String) :
    (d ∈ (runOutState (runSelect env
        ⟨none, none, false, false, false, none, some 0, false⟩ s)).deleteSet ↔
      d ∈ (runOutState (runSelect env
        ⟨none, none, false, false, false, none, none, true⟩ s)).deleteSet) ∧
    (d ∈ (runOutState (runSelect env
        ⟨none, none, false, false, false, none, some 0, false⟩ s)).filterSet ↔
      d ∈ (runOutState (runSelect env
        ⟨none, none, false, false, false, none, none, true⟩ s)).filterSet) := by
  have h1 : runOutState (runSelect env
      ⟨none, none, false, false, false, none, some 0, false⟩ s) =
      keepNuntagged 0 s := rfl
  have h2 : runOutState (runSelect env
      ⟨none, none, false, false, false, none, none, true⟩ s) =
      deleteUntagged s := rfl
  rw [h1, h2]
  have hiff : ∀ dd : String,
      (∃ p ∈ sortByUpdatedDesc (collectUntagged s),
        (fun p : PackageVersion => some p.name) p = some dd) ↔
      (∃ x ∈ s.filterSet,
        (fun d' =>
          match getPackageByDigest s.repo d' with
          | some ghPackage =>
            if ghPackage.tags.length = 0 then some d' else none
          | none => none) x = some dd) := by
    intro dd
    constructor
    · rintro ⟨p, hp, hpd⟩
      have hpd' : p.name = dd := Option.some_inj.mp hpd
      have hmem : p ∈ collectUntagged s := mem_sortByUpdatedDesc.mp hp
      rcases collectUntagged_mem.mp hmem with ⟨x, hx, hgp, h0⟩
      refine ⟨x, hx, ?_⟩
      dsimp only
      rw [hgp]
      dsimp only
      rw [if_pos h0, Option.some_inj]
      rw [getPackageByDigest_name hgp] at hpd'
      exact hpd'
    · rintro ⟨x, hx, hF⟩
      dsimp only at hF
      cases hgp : getPackageByDigest s.repo x with
      | none => rw [hgp] at hF; exact absurd hF (by simp)
      | some q =>
        rw [hgp] at hF
        dsimp only at hF
        by_cases h0 : q.tags.length = 0
        · rw [if_pos h0, Option.some_inj] at hF
          subst hF
          refine ⟨q, mem_sortByUpdatedDesc.mpr
            (collectUntagged_mem.mpr ⟨x, hx, hgp, h0⟩), ?_⟩
          dsimp only
          rw [getPackageByDigest_name hgp]
        · rw [if_neg h0] at hF; exact absurd hF (by simp)
  by_cases hu : (collectUntagged s).length > 0
  · have hlen : (sortByUpdatedDesc (collectUntagged s)).length > 0 := by
      rw [length_sortByUpdatedDesc]; exact hu
    have hke : keepNuntagged 0 s = foldMoveOpt
        (fun p : PackageVersion => some p.name)
        (sortByUpdatedDesc (collectUntagged s)) s := by
      unfold keepNuntagged
      rw [if_pos hu, if_pos hlen, List.drop_zero]
    rw [hke]
    unfold deleteUntagged
    constructor
    · rw [foldMoveOpt_deleteSet_mem, foldMoveOpt_deleteSet_mem, hiff d]
    · rw [foldMoveOpt_filterSet_mem, foldMoveOpt_filterSet_mem, hiff d]
  · have hke : keepNuntagged 0 s = s := by
      unfold keepNuntagged
      rw [if_neg hu]
    have hnone : ¬∃ x ∈ s.filterSet,
        (fun d' =>
          match getPackageByDigest s.repo d' with
          | some ghPackage =>
            if ghPackage.tags.length = 0 then some d' else none
          | none => none) x = some d := by
      intro hex
      rcases (hiff d).mpr hex with ⟨p, hp, -⟩
      have : p ∈ collectUntagged s := mem_sortByUpdatedDesc.mp hp
      rcases List.length_pos_of_mem this with hpos
      exact hu hpos
    rw [hke]
    unfold deleteUntagged
    constructor
    · rw [foldMoveOpt_deleteSet_mem]
      constructor
      · exact Or.inl
      · rintro (hh | hex)
        · exact hh
        · exact absurd hex hnone
    · rw [foldMoveOpt_filterSet_mem]
      constructor
      · exact fun hh => ⟨hh, hnone⟩
      · exact fun hh => hh.1

/-- C6 (amended): a `putManifest` failure while untagging a tag is NOT
caught — `deleteByTag` has no handler around the untagging loop — so the
error propagates, the remaining tags of the untag set are not processed, and
the run fails. -/
theorem c6_amended_putmanifest_abort (env : Env) (st : UntagState)
    (t : String) (rest : List String) (d : String) (pkg : PackageVersion)
    (hd : getDigestByTag st.snapshot t = some d)
    (hp : getPackageByDigest st.snapshot d = some pkg)
    (hn : pkg.tags.length ≠ 1)
    (hf : env.putFails t = true) :
    untagLoop env (t :: rest) st = .error st := by
  have hstep : untagStep env st t = .error st := by
    unfold untagStep
    rw [hd]
    try dsimp only
    rw [hp]
    try dsimp only
    rw [if_neg hn, if_pos hf]
  unfold untagLoop
  rw [hstep]

/-- Witness for C6 (amended) at concrete inputs. -/
theorem c6_amended_witness :
    untagLoop
      ⟨(fun d => if d == "sha256:v" then Manifest.index ["sha256:k"]
          else Manifest.image []),
        (fun _ => "sha256:new"), (fun _ => 42), (fun t => t == "t1")⟩
      ["t1", "t2"]
      ⟨[⟨1, "sha256:v", ["t1", "t2", "t3"], 0⟩],
        [⟨1, "sha256:v", ["t1", "t2", "t3"], 0⟩], [], [], []⟩ =
    .error ⟨[⟨1, "sha256:v", ["t1", "t2", "t3"], 0⟩],
      [⟨1, "sha256:v", ["t1", "t2", "t3"], 0⟩], [], [], []⟩ :=
  c6_amended_putmanifest_abort _ _ _ _ "sha256:v" ⟨1, "sha256:v", ["t1", "t2", "t3"], 0⟩
    rfl rfl (by decide) rfl

/-- C6 counterexample: the claim says a `putManifest` failure on one tag lets
processing continue with the remaining tags; on this input the first tag's
upload fails and the loop returns an error with the second tag untouched (no
upload, no deletion, the platform unchanged), so the run fails. -/
theorem c6_counterexample :
    untagLoop
      ⟨(fun d => if d == "sha256:w" then Manifest.index ["sha256:k"]
          else Manifest.image []),
        (fun _ => "sha256:new2"), (fun _ => 47), (fun t => t == "u1")⟩
      ["u1", "u2"]
      ⟨[⟨5, "sha256:w", ["u1", "u2", "u3"], 0⟩],
        [⟨5, "sha256:w", ["u1", "u2", "u3"], 0⟩], [], [], []⟩ =
    .error ⟨[⟨5, "sha256:w", ["u1", "u2", "u3"], 0⟩],
      [⟨5, "sha256:w", ["u1", "u2", "u3"], 0⟩], [], [], []⟩ := by
  rfl

/-- C4: the pre-scan of `deleteByTag` puts a matched, non-excluded tag whose
target version carries ≥ 2 tags into the untag set, and one whose target
carries exactly 1 tag into the standard set; and during the untagging loop a
tag whose target meanwhile dropped to exactly one tag is reclassified into
the standard set instead of being untagged. -/
theorem c4_delete_by_tag_partition (repo : List PackageVersion)
    (ex matchTags : List String) (t : String) (env : Env) (st : UntagState) :
    (t ∈ (preScan repo ex matchTags).1 ↔
      t ∈ matchTags ∧ t ∉ ex ∧
        ∃ n, tagTargetTagCount repo t = some n ∧ 1 < n) ∧
    (t ∈ (preScan repo ex matchTags).2 ↔
      t ∈ matchTags ∧ t ∉ ex ∧ tagTargetTagCount repo t = some 1) ∧
    (tagTargetTagCount st.snapshot t = some 1 →
      untagStep env st t = .ok { st with standardTags := setAdd st.standardTags t }) := by
  refine ⟨?_, ?_, ?_⟩
  · unfold preScan
    rw [preScan_fold_untag_mem]
    simp only [List.not_mem_nil, false_or]
  · unfold preScan
    rw [preScan_fold_std_mem]
    simp only [List.not_mem_nil, false_or]
  · intro h1
    unfold tagTargetTagCount at h1
    cases hd : getDigestByTag st.snapshot t with
    | none => rw [hd] at h1; exact absurd h1 (by simp)
    | some d =>
      rw [hd] at h1
      dsimp only at h1
      cases hp : getPackageByDigest st.snapshot d with
      | none => rw [hp] at h1; exact absurd h1 (by simp)
      | some pkg =>
        rw [hp, Option.map_some'] at h1
        have hl : pkg.tags.length = 1 := Option.some_inj.mp h1
        unfold untagStep
        rw [hd]
        dsimp only
        rw [hp]
        dsimp only
        rw [if_pos hl]

/-- Witness for C4 at concrete inputs. -/
theorem c4_witness :
    ("x" ∈ (preScan [⟨1, "sha256:a", ["x", "y"], 0⟩, ⟨2, "sha256:b", ["z"], 0⟩]
        [] ["x", "z"]).1) ∧
    ("z" ∈ (preScan [⟨1, "sha256:a", ["x", "y"], 0⟩, ⟨2, "sha256:b", ["z"], 0⟩]
        [] ["x", "z"]).2) ∧
    untagStep ⟨(fun _ => Manifest.image []), (fun _ => "sha256:n"),
        (fun _ => 9), (fun _ => false)⟩
      ⟨[⟨2, "sha256:b", ["z"], 0⟩], [⟨2, "sha256:b", ["z"], 0⟩], [], [], []⟩ "z" =
      .ok ⟨[⟨2, "sha256:b", ["z"], 0⟩], [⟨2, "sha256:b", ["z"], 0⟩], ["z"], [], []⟩ := by
  refine ⟨?_, ?_, ?_⟩
  · exact ((c4_delete_by_tag_partition _ [] ["x", "z"] "x"
      ⟨(fun _ => Manifest.image []), (fun _ => "sha256:n"), (fun _ => 9),
        (fun _ => false)⟩ ⟨[], [], [], [], []⟩).1).mpr
      ⟨by decide, by decide, 2, rfl, by decide⟩
  · exact ((c4_delete_by_tag_partition _ [] ["x", "z"] "z"
      ⟨(fun _ => Manifest.image []), (fun _ => "sha256:n"), (fun _ => 9),
        (fun _ => false)⟩ ⟨[], [], [], [], []⟩).2.1).mpr
      ⟨by decide, by decide, rfl⟩
  · exact (c4_delete_by_tag_partition [] [] [] "z"
      ⟨(fun _ => Manifest.image []), (fun _ => "sha256:n"), (fun _ => 9),
        (fun _ => false)⟩
      ⟨[⟨2, "sha256:b", ["z"], 0⟩], [⟨2, "sha256:b", ["z"], 0⟩], [], [], []⟩).2.2 rfl

/-- C1 (amended): the exclusion in `reload` removes the digest of every
matching tag from `filterSet`, and every stage that draws its candidates
from `filterSet` — ghost, partial, keep-N-tagged, keep-N-untagged and
delete-untagged — never adds a digest that is outside `filterSet` to
`deleteSet`; so those stages never schedule an excluded digest.  (The
orphan stage is NOT in this list: it scans all tags and can schedule an
excluded digest, see the counterexample.  The delete-by-tag standard
handling is not in this list either: its candidates are the matched tag
set, not `filterSet`, so nothing is asserted about it here.) -/
theorem c1_amended_exclusion (reg : Reg) (m : String → Bool) (s : CState)
    (t d : String) (n k : Nat)
    (hm : m t = true) (ht : t ∈ getTags s.repo)
    (hd : getDigestByTag s.repo t = some d) :
    d ∉ (excludeReload m s).filterSet ∧
    (∀ s' : CState, d ∉ s'.filterSet → d ∉ s'.deleteSet →
      d ∉ (deleteGhostImages reg s').deleteSet ∧
      d ∉ (deletePartialImages reg s').deleteSet ∧
      d ∉ (keepNtagged n s').deleteSet ∧
      d ∉ (keepNuntagged k s').deleteSet ∧
      d ∉ (deleteUntagged s').deleteSet) := by
  refine ⟨excludeReload_removes m s t d hm ht hd, ?_⟩
  intro s' hdf hds
  have hkeep : ∀ (l : List PackageVersion),
      (∀ p ∈ l, p.name ∈ s'.filterSet) →
      d ∉ (foldMoveOpt (fun p : PackageVersion => some p.name) l s').deleteSet := by
    intro l hl hmem
    rcases (foldMoveOpt_deleteSet_mem _ _ _ _).mp hmem with hh | ⟨p, hp, hfp⟩
    · exact hds hh
    · exact hdf ((Option.some_inj.mp hfp) ▸ hl p hp)
  refine ⟨?_, ?_, ?_, ?_, ?_⟩
  · intro hmem
    rcases (foldMoveOpt_deleteSet_mem _ _ _ _).mp hmem with hh | ⟨x, hx, hfx⟩
    · exact hds hh
    · by_cases hg : ghostCheck reg s'.repo x
      · rw [if_pos hg] at hfx
        exact hdf ((Option.some_inj.mp hfx) ▸ hx)
      · rw [if_neg hg] at hfx
        exact absurd hfx (by simp)
  · intro hmem
    rcases (foldMoveOpt_deleteSet_mem _ _ _ _).mp hmem with hh | ⟨x, hx, hfx⟩
    · exact hds hh
    · by_cases hg : partialCheck reg s'.repo x
      · rw [if_pos hg] at hfx
        exact hdf ((Option.some_inj.mp hfx) ▸ hx)
      · rw [if_neg hg] at hfx
        exact absurd hfx (by simp)
  · unfold keepNtagged
    by_cases hlen : (sortByUpdatedDesc (collectTagged s')).length > n
    · rw [if_pos hlen]
      refine hkeep _ ?_
      intro p hp
      exact collectTagged_name_mem
        (mem_sortByUpdatedDesc.mp (List.mem_of_mem_drop hp))
    · rw [if_neg hlen]
      exact hds
  · unfold keepNuntagged
    by_cases hu : (collectUntagged s').length > 0
    · rw [if_pos hu]
      by_cases hlen : (sortByUpdatedDesc (collectUntagged s')).length > k
      · rw [if_pos hlen]
        refine hkeep _ ?_
        intro p hp
        exact collectUntagged_name_mem
          (mem_sortByUpdatedDesc.mp (List.mem_of_mem_drop hp))
      · rw [if_neg hlen]
        exact hds
    · rw [if_neg hu]
      exact hds
  · intro hmem
    rcases (foldMoveOpt_deleteSet_mem _ _ _ _).mp hmem with hh | ⟨x, hx, hfx⟩
    · exact hds hh
    · cases hgp : getPackageByDigest s'.repo x with
      | none => rw [hgp] at hfx; exact absurd hfx (by simp)
      | some q =>
        rw [hgp] at hfx
        dsimp only at hfx
        by_cases h0 : q.tags.length = 0
        · rw [if_pos h0] at hfx
          exact hdf ((Option.some_inj.mp hfx) ▸ hx)
        · rw [if_neg h0] at hfx
          exact absurd hfx (by simp)

/-- Witness for C1 (amended) at a concrete state. -/
theorem c1_amended_witness :
    "sha256:z" ∉ (excludeReload (fun tg => tg == "keep")
      ⟨[⟨1, "sha256:z", ["keep"], 0⟩], ["sha256:z"], [], [], [], [], []⟩).filterSet ∧
    "sha256:z" ∉ (deleteUntagged
      ⟨[⟨1, "sha256:z", ["keep"], 0⟩], [], [], [], [], [], []⟩).deleteSet := by
  have h := c1_amended_exclusion (fun _ => Manifest.image [])
    (fun tg => tg == "keep")
    ⟨[⟨1, "sha256:z", ["keep"], 0⟩], ["sha256:z"], [], [], [], [], []⟩
    "keep" "sha256:z" 0 0 rfl (by decide) rfl
  refine ⟨h.1, ?_⟩
  exact (h.2 ⟨[⟨1, "sha256:z", ["keep"], 0⟩], [], [], [], [], [], []⟩
    (List.not_mem_nil _) (List.not_mem_nil _)).2.2.2.2

/-- C1 counterexample: with `excludeTags` matching the referrer tag
`sha256-a` (whose subject digest `sha256:a` does not exist) and
`delete-orphaned-images` enabled, the run schedules and deletes the excluded
tag's own digest `sha256:z`: the orphan stage reads ALL tags in use, not
`filterSet`, so the exclusion does not protect the digest — contradicting
the claim that an excluded tag's digest is never in `deleteSet` and never
deleted. -/
theorem c1_counterexample :
    ((fun tg => tg == "sha256-a") "sha256-a" = true) ∧
    getDigestByTag [⟨1, "sha256:z", ["sha256-a"], 0⟩] "sha256-a" =
      some "sha256:z" ∧
    "sha256:z" ∈ (runOutState (cleanupModel
      ⟨(fun _ => Manifest.image []), (fun _ => "sha256:x"), (fun _ => 9),
        (fun _ => false)⟩
      ⟨none, some (fun tg => tg == "sha256-a"), false, false, true, none,
        none, false⟩
      [⟨1, "sha256:z", ["sha256-a"], 0⟩])).deleteSet ∧
    "sha256:z" ∈ (runOutState (cleanupModel
      ⟨(fun _ => Manifest.image []), (fun _ => "sha256:x"), (fun _ => 9),
        (fun _ => false)⟩
      ⟨none, some (fun tg => tg == "sha256-a"), false, false, true, none,
        none, false⟩
      [⟨1, "sha256:z", ["sha256-a"], 0⟩])).deleted := by
  refine ⟨rfl, rfl, ?_, ?_⟩ <;> decide

/-- When the parent has no referrer tags, `deleteImage` is exactly: record
the parent as deleted, then run the children loop. -/
theorem deleteImage_eq_deleteChildren (reg : Reg) (fuel : Nat) (s : CState)
    (ghPackage : PackageVersion) (children : List String)
    (hnotdel : ghPackage.name ∉ s.deleted)
    (hman : reg ghPackage.name = .index children)
    (hnoref : ∀ tag ∈ getTags s.repo,
      strStartsWith tag (jsReplace ghPackage.name "sha256:" "sha256-") = false) :
    deleteImage reg (fuel + 1) s ghPackage =
      deleteChildren ghPackage children
        { s with deleted := setAdd s.deleted ghPackage.name,
                 log := s.log ++ [(ghPackage.id, ghPackage.name, ghPackage.tags)] } := by
  simp only [deleteImage]
  rw [if_neg hnotdel, hman]
  dsimp only
  refine foldl_invariant (fun (b : CState) => b = _) _ _ _ ?_ rfl
  intro b a ha hb
  subst hb
  have ha' : a ∈ getTags s.repo := by
    rw [deleteChildren_repo] at ha
    exact ha
  have hss := hnoref a ha'
  rw [if_neg (fun hcond => absurd hcond.1 (by simp [hss]))]

/-- C2 (amended): during a standard delete of a multi-arch parent `d` whose
digest has no referrer tags (no tag in use starts with `sha256-<d's hex>`),
an existing and not-yet-deleted child `c` listed once in `d`'s index manifest
is deleted exactly when `usedBy[c]` is `{d}`; when `usedBy[c]` holds any
other parent, `c` survives and only the reference to `d` is removed from
`usedBy[c]`.  (The no-referrer-tag hypothesis is necessary: the recursive
referrer deletion at the end of `deleteImage` deletes any package whose tag
starts with the parent's digest tag even when it is a shared child — see the
counterexample.) -/
theorem c2_amended_children_used_by (reg : Reg) (fuel : Nat) (s : CState)
    (ghPackage : PackageVersion) (children : List String) (c : String)
    (cp : PackageVersion) (ps : List String)
    (hnotdel : ghPackage.name ∉ s.deleted)
    (hman : reg ghPackage.name = .index children)
    (hnodup : children.Nodup)
    (hc : c ∈ children)
    (hcp : getPackageByDigest s.repo c = some cp)
    (hcnot : c ∉ s.deleted)
    (hcne : c ≠ ghPackage.name)
    (hub : ubGet s.usedBy c = some ps)
    (hnoref : ∀ tag ∈ getTags s.repo,
      strStartsWith tag (jsReplace ghPackage.name "sha256:" "sha256-") = false) :
    (c ∈ (deleteImage reg (fuel + 1) s ghPackage).deleted ↔
      ps = [ghPackage.name]) ∧
    (ps ≠ [ghPackage.name] →
      ubGet (deleteImage reg (fuel + 1) s ghPackage).usedBy c =
        some (ps.filter (fun y => y ≠ ghPackage.name)) ∧
      c ∉ (deleteImage reg (fuel + 1) s ghPackage).deleted) := by
  rw [deleteImage_eq_deleteChildren reg fuel s ghPackage children hnotdel
    hman hnoref]
  have hspec := @deleteChildren_child_spec ghPackage c cp ps children
    { s with deleted := setAdd s.deleted ghPackage.name,
             log := s.log ++ [(ghPackage.id, ghPackage.name, ghPackage.tags)] }
    hnodup hc hcp
    (fun hmem => (setAdd_mem.mp hmem).elim hcnot hcne)
    hub
  exact hspec

/-- Witness for C2 (amended) at a concrete state: parent `sha256:p` lists the
children `sha256:c1` (used only by it — deleted) and `sha256:c2` (also used
by the surviving `sha256:q` — kept, and its `usedBy` entry drops `sha256:p`). -/
theorem c2_amended_witness :
    ("sha256:c1" ∈ (deleteImage
      (fun dg => if dg == "sha256:p" then Manifest.index ["sha256:c1", "sha256:c2"]
        else Manifest.image [])
      3
      ⟨[⟨1, "sha256:p", ["a"], 0⟩, ⟨2, "sha256:c1", [], 0⟩,
        ⟨3, "sha256:c2", [], 0⟩, ⟨4, "sha256:q", ["b"], 0⟩],
        [], [], [],
        [("sha256:c1", ["sha256:p"]), ("sha256:c2", ["sha256:p", "sha256:q"])],
        [], []⟩
      ⟨1, "sha256:p", ["a"], 0⟩).deleted) ∧
    ("sha256:c2" ∉ (deleteImage
      (fun dg => if dg == "sha256:p" then Manifest.index ["sha256:c1", "sha256:c2"]
        else Manifest.image [])
      3
      ⟨[⟨1, "sha256:p", ["a"], 0⟩, ⟨2, "sha256:c1", [], 0⟩,
        ⟨3, "sha256:c2", [], 0⟩, ⟨4, "sha256:q", ["b"], 0⟩],
        [], [], [],
        [("sha256:c1", ["sha256:p"]), ("sha256:c2", ["sha256:p", "sha256:q"])],
        [], []⟩
      ⟨1, "sha256:p", ["a"], 0⟩).deleted) := by
  constructor
  · exact (c2_amended_children_used_by
      (fun dg => if dg == "sha256:p" then Manifest.index ["sha256:c1", "sha256:c2"]
        else Manifest.image [])
      2
      ⟨[⟨1, "sha256:p", ["a"], 0⟩, ⟨2, "sha256:c1", [], 0⟩,
        ⟨3, "sha256:c2", [], 0⟩, ⟨4, "sha256:q", ["b"], 0⟩],
        [], [], [],
        [("sha256:c1", ["sha256:p"]), ("sha256:c2", ["sha256:p", "sha256:q"])],
        [], []⟩
      ⟨1, "sha256:p", ["a"], 0⟩ ["sha256:c1", "sha256:c2"]
      "sha256:c1" ⟨2, "sha256:c1", [], 0⟩ ["sha256:p"]
      (by decide) rfl (by decide) (by decide) rfl (by decide) (by decide) rfl
      (by decide)).1.mpr rfl
  · exact ((c2_amended_children_used_by
      (fun dg => if dg == "sha256:p" then Manifest.index ["sha256:c1", "sha256:c2"]
        else Manifest.image [])
      2
      ⟨[⟨1, "sha256:p", ["a"], 0⟩, ⟨2, "sha256:c1", [], 0⟩,
        ⟨3, "sha256:c2", [], 0⟩, ⟨4, "sha256:q", ["b"], 0⟩],
        [], [], [],
        [("sha256:c1", ["sha256:p"]), ("sha256:c2", ["sha256:p", "sha256:q"])],
        [], []⟩
      ⟨1, "sha256:p", ["a"], 0⟩ ["sha256:c1", "sha256:c2"]
      "sha256:c2" ⟨3, "sha256:c2", [], 0⟩ ["sha256:p", "sha256:q"]
      (by decide) rfl (by decide) (by decide) rfl (by decide) (by decide) rfl
      (by decide)).2 (by decide)).2

/-- C2 counterexample: the claim says a child listed in the parent's manifest
whose `usedBy` set contains another parent is not deleted; here the child
`sha256:ccc` (listed by both `sha256:ddd` and the surviving `sha256:eee`,
with `usedBy = {sha256:eee}` as the loader records only the first-seen
parent) additionally carries the referrer tag `sha256-ddd`, so the standard
delete of `sha256:ddd` — triggered through `delete-tags` matching its tag
`imgd` — recursively deletes the shared child while `sha256:eee` still lists
it. -/
theorem c2_counterexample :
    (ubGet (reloadModel
        (fun dg => if dg == "sha256:ddd" then Manifest.index ["sha256:ccc"]
          else if dg == "sha256:eee" then Manifest.index ["sha256:ccc"]
          else Manifest.image [])
        none
        [⟨1, "sha256:eee", ["e"], 0⟩, ⟨2, "sha256:ddd", ["imgd"], 0⟩,
          ⟨3, "sha256:ccc", ["sha256-ddd"], 0⟩]).usedBy "sha256:ccc" =
      some ["sha256:eee"]) ∧
    (runOutState (cleanupModel
      ⟨(fun dg => if dg == "sha256:ddd" then Manifest.index ["sha256:ccc"]
          else if dg == "sha256:eee" then Manifest.index ["sha256:ccc"]
          else Manifest.image []),
        (fun _ => "sha256:x"), (fun _ => 9), (fun _ => false)⟩
      ⟨some (fun tg => tg == "imgd"), none, false, false, false, none, none,
        false⟩
      [⟨1, "sha256:eee", ["e"], 0⟩, ⟨2, "sha256:ddd", ["imgd"], 0⟩,
        ⟨3, "sha256:ccc", ["sha256-ddd"], 0⟩])).deleted =
      ["sha256:ddd", "sha256:ccc"] ∧
    ("sha256:eee" ∉ (runOutState (cleanupModel
      ⟨(fun dg => if dg == "sha256:ddd" then Manifest.index ["sha256:ccc"]
          else if dg == "sha256:eee" then Manifest.index ["sha256:ccc"]
          else Manifest.image []),
        (fun _ => "sha256:x"), (fun _ => 9), (fun _ => false)⟩
      ⟨some (fun tg => tg == "imgd"), none, false, false, false, none, none,
        false⟩
      [⟨1, "sha256:eee", ["e"], 0⟩, ⟨2, "sha256:ddd", ["imgd"], 0⟩,
        ⟨3, "sha256:ccc", ["sha256-ddd"], 0⟩])).deleted) := by
  refine ⟨?_, ?_, ?_⟩ <;> decide

/-! ### Lemmas about the untag protocol -/

theorem stripTag_name (t : String) (v : PackageVersion) :
    (stripTag t v).name = v.name := by
  unfold stripTag
  by_cases h : t ∈ v.tags
  · rw [if_pos h]
  · rw [if_neg h]

theorem stripTag_id (t : String) (v : PackageVersion) :
    (stripTag t v).id = v.id := by
  unfold stripTag
  by_cases h : t ∈ v.tags
  · rw [if_pos h]
  · rw [if_neg h]

theorem stripTag_not_mem (t : String) (v : PackageVersion) :
    t ∉ (stripTag t v).tags := by
  unfold stripTag
  by_cases h : t ∈ v.tags
  · rw [if_pos h]
    simp
  · rw [if_neg h]
    exact h

theorem getPackageByDigest_map_stripTag (repo : List PackageVersion)
    (t d : String) :
    getPackageByDigest (repo.map (stripTag t)) d =
      (getPackageByDigest repo d).map (stripTag t) := by
  unfold getPackageByDigest
  rw [← List.map_reverse, List.find?_map]
  have hp : ((fun v : PackageVersion => v.name == d) ∘ stripTag t) =
      (fun v : PackageVersion => v.name == d) := by
    funext v
    rw [Function.comp_apply, stripTag_name]
  rw [hp]

theorem getDigestByTag_map_stripTag_none (repo : List PackageVersion)
    (t : String) :
    getDigestByTag (repo.map (stripTag t)) t = none := by
  unfold getDigestByTag
  rw [List.find?_eq_none.mpr]
  · rfl
  · intro v hv
    rcases List.mem_map.mp (List.mem_reverse.mp hv) with ⟨w, -, rfl⟩
    simp [stripTag_not_mem]

theorem cloneCleared_multiArch (m : Manifest) :
    (match cloneCleared m with | .index _ => true | .image _ => false) =
      (match m with | .index _ => true | .image _ => false) := by
  cases m <;> rfl

/-- C3: the untag protocol for tag `t` on a multi-tagged digest `d` fetches
`d`'s manifest, uploads its clone with `manifests[]`/`layers[]` cleared
under `t` (multi-arch content type for an index), reloads the package maps
and deletes the freshly created version now carried by `t` (the recorded
deletion has the new digest, the fresh id and the tag); afterwards `t` no
longer resolves and the original digest `d` keeps all its other tags. -/
theorem c3_untag_protocol (env : Env) (repo : List PackageVersion)
    (std : List String) (ups : List (String × Manifest × Bool))
    (dels : List (Nat × String × List String)) (t d : String)
    (pkg : PackageVersion)
    (hd : getDigestByTag repo t = some d)
    (hp : getPackageByDigest repo d = some pkg)
    (h2 : pkg.tags.length ≠ 1)
    (hput : env.putFails t = false)
    (hfid : ∀ v ∈ repo, v.id ≠ env.freshId t) :
    untagStep env ⟨repo, repo, std, ups, dels⟩ t =
      .ok ⟨repo.map (stripTag t),
        putEffect repo t (env.freshId t)
          (env.digestOfManifest (cloneCleared (env.reg d))),
        std,
        ups ++ [(t, cloneCleared (env.reg d),
          match env.reg d with | .index _ => true | .image _ => false)],
        dels ++ [(env.freshId t,
          env.digestOfManifest (cloneCleared (env.reg d)), [t])]⟩ ∧
    getDigestByTag (repo.map (stripTag t)) t = none ∧
    getPackageByDigest (repo.map (stripTag t)) d = some (stripTag t pkg) := by
  refine ⟨?_, getDigestByTag_map_stripTag_none repo t, ?_⟩
  · have hsnap : getDigestByTag
        (putEffect repo t (env.freshId t)
          (env.digestOfManifest (cloneCleared (env.reg d)))) t =
        some (env.digestOfManifest (cloneCleared (env.reg d))) := by
      unfold putEffect getDigestByTag
      rw [List.reverse_append]
      simp only [List.reverse_cons, List.reverse_nil, List.nil_append,
        List.singleton_append]
      rw [List.find?_cons_of_pos _ (by simp), Option.map_some']
    have hgid : getIdByDigest
        (putEffect repo t (env.freshId t)
          (env.digestOfManifest (cloneCleared (env.reg d))))
        (env.digestOfManifest (cloneCleared (env.reg d))) =
        some (env.freshId t) := by
      unfold putEffect getIdByDigest getPackageByDigest
      rw [List.reverse_append]
      simp only [List.reverse_cons, List.reverse_nil, List.nil_append,
        List.singleton_append]
      rw [List.find?_cons_of_pos _ (by simp), Option.map_some']
    have hplat : platformDelete
        (putEffect repo t (env.freshId t)
          (env.digestOfManifest (cloneCleared (env.reg d))))
        (env.freshId t) = repo.map (stripTag t) := by
      unfold platformDelete putEffect
      rw [List.filter_append]
      have ha : (repo.map (stripTag t)).filter
          (fun v => v.id ≠ env.freshId t) = repo.map (stripTag t) := by
        refine List.filter_eq_self.mpr ?_
        intro a ha
        rcases List.mem_map.mp ha with ⟨w, hw, rfl⟩
        simp only [stripTag_id, decide_eq_true_eq]
        exact hfid w hw
      have hb : ([⟨env.freshId t,
          env.digestOfManifest (cloneCleared (env.reg d)), [t], 0⟩] :
            List PackageVersion).filter
          (fun v => v.id ≠ env.freshId t) = [] := by simp
      rw [ha, hb, List.append_nil]
    unfold untagStep
    rw [hd]
    try dsimp only
    rw [hp]
    try dsimp only
    rw [if_neg h2, if_neg (by simp [hput])]
    try dsimp only
    rw [hsnap]
    try dsimp only
    rw [hgid]
    try dsimp only
    rw [hplat, cloneCleared_multiArch]
  · rw [getPackageByDigest_map_stripTag, hp]
    rw [Option.map_some']

/-- Witness for C3 at a concrete state: untagging `t1` from the version
carrying `t1,t2,t3`. -/
theorem c3_witness :
    untagStep
      ⟨(fun dg => if dg == "sha256:v" then Manifest.index ["sha256:k"]
          else Manifest.image []),
        (fun _ => "sha256:new"), (fun _ => 42), (fun _ => false)⟩
      ⟨[⟨1, "sha256:v", ["t1", "t2", "t3"], 0⟩],
        [⟨1, "sha256:v", ["t1", "t2", "t3"], 0⟩], [], [], []⟩ "t1" =
      .ok ⟨[⟨1, "sha256:v", ["t1", "t2", "t3"], 0⟩].map (stripTag "t1"),
        putEffect [⟨1, "sha256:v", ["t1", "t2", "t3"], 0⟩] "t1" 42 "sha256:new",
        [], [("t1", Manifest.index [], true)],
        [(42, "sha256:new", ["t1"])]⟩ ∧
    getDigestByTag ([⟨1, "sha256:v", ["t1", "t2", "t3"], 0⟩].map
      (stripTag "t1")) "t1" = none ∧
    getPackageByDigest ([⟨1, "sha256:v", ["t1", "t2", "t3"], 0⟩].map
      (stripTag "t1")) "sha256:v" =
      some (stripTag "t1" ⟨1, "sha256:v", ["t1", "t2", "t3"], 0⟩) :=
  c3_untag_protocol
    ⟨(fun dg => if dg == "sha256:v" then Manifest.index ["sha256:k"]
        else Manifest.image []),
      (fun _ => "sha256:new"), (fun _ => 42), (fun _ => false)⟩
    [⟨1, "sha256:v", ["t1", "t2", "t3"], 0⟩] [] [] [] "t1" "sha256:v"
    ⟨1, "sha256:v", ["t1", "t2", "t3"], 0⟩
    rfl rfl (by decide) rfl (by decide)

/-- C7 (amended): when more than `n` tagged digests remain in `filterSet`,
the keep-N-tagged stage sorts them by `updatedAt` descending, keeps exactly
the first `n` in `filterSet`, moves every other one into `deleteSet` (each
kept package is at least as recent as each evicted one), and `doDelete` then
deletes every digest of `deleteSet`.  (Only digests in `filterSet` are
counted: tagged versions outside `filterSet` — excluded ones, or children of
multi-arch images shared with surviving parents — can survive in addition,
so the run's total number of surviving tagged versions is not bounded by
`n` plus the number of excluded tags; see the counterexample.) -/
theorem c7_amended_keep_n_tagged (reg : Reg) (n : Nat) (s : CState)
    (sorted : List PackageVersion)
    (hs : sorted = sortByUpdatedDesc (collectTagged s))
    (hnodup : s.filterSet.Nodup)
    (hlen : sorted.length > n) :
    (∀ p ∈ sorted.drop n, p.name ∈ (keepNtagged n s).deleteSet ∧
        p.name ∉ (keepNtagged n s).filterSet) ∧
    (∀ p ∈ sorted.take n, p.name ∈ (keepNtagged n s).filterSet) ∧
    (∀ p ∈ sorted.take n, ∀ q ∈ sorted.drop n, q.updatedAt ≤ p.updatedAt) ∧
    (∀ (s' : CState) (dd : String) (p : PackageVersion), dd ∈ s'.deleteSet →
      getPackageByDigest s'.repo dd = some p →
      dd ∈ (doDelete reg s').deleted) := by
  subst hs
  have hstage : keepNtagged n s = foldMoveOpt
      (fun p : PackageVersion => some p.name)
      ((sortByUpdatedDesc (collectTagged s)).drop n) s := by
    unfold keepNtagged
    rw [if_pos hlen]
  have hnamesnodup :
      (((sortByUpdatedDesc (collectTagged s)).map (·.name)).Nodup) := by
    refine ((sortByUpdatedDesc_perm (collectTagged s)).map (·.name)).nodup_iff.mpr ?_
    exact ((collectTagged_names_sublist s).nodup hnodup)
  refine ⟨?_, ?_, ?_, ?_⟩
  · intro p hp
    rw [hstage]
    constructor
    · exact (foldMoveOpt_deleteSet_mem _ _ _ _).mpr (Or.inr ⟨p, hp, rfl⟩)
    · intro hmem
      exact ((foldMoveOpt_filterSet_mem _ _ _ _).mp hmem).2 ⟨p, hp, rfl⟩
  · intro p hp
    rw [hstage]
    refine (foldMoveOpt_filterSet_mem _ _ _ _).mpr ⟨?_, ?_⟩
    · exact collectTagged_name_mem
        (mem_sortByUpdatedDesc.mp (List.mem_of_mem_take hp))
    · rintro ⟨q, hq, hqe⟩
      have hqp : q.name = p.name := Option.some_inj.mp hqe
      have hsplit : (sortByUpdatedDesc (collectTagged s)).map (·.name) =
          ((sortByUpdatedDesc (collectTagged s)).take n).map (·.name) ++
          ((sortByUpdatedDesc (collectTagged s)).drop n).map (·.name) := by
        rw [← List.map_append, List.take_append_drop]
      rw [hsplit] at hnamesnodup
      rcases List.nodup_append.mp hnamesnodup with ⟨-, -, hdisj⟩
      exact hdisj (List.mem_map.mpr ⟨p, hp, rfl⟩)
        (hqp ▸ List.mem_map.mpr ⟨q, hq, rfl⟩)
  · intro p hp q hq
    have hpair := sortByUpdatedDesc_pairwise (collectTagged s)
    rw [← List.take_append_drop n (sortByUpdatedDesc (collectTagged s))]
      at hpair
    rcases List.pairwise_append.mp hpair with ⟨-, -, h⟩
    exact h p hp q hq
  · intro s' dd p hdd hp
    exact doDelete_deletes reg s' dd p hdd hp

/-- Witness for C7 (amended) at a concrete state: keep 1 of 2 tagged
digests. -/
theorem c7_amended_witness :
    ("sha256:b" ∈ (keepNtagged 1
      ⟨[⟨1, "sha256:a", ["t"], 100⟩, ⟨2, "sha256:b", ["u"], 50⟩],
        ["sha256:a", "sha256:b"], [], [], [], [], []⟩).deleteSet) ∧
    ("sha256:a" ∈ (keepNtagged 1
      ⟨[⟨1, "sha256:a", ["t"], 100⟩, ⟨2, "sha256:b", ["u"], 50⟩],
        ["sha256:a", "sha256:b"], [], [], [], [], []⟩).filterSet) := by
  have h := c7_amended_keep_n_tagged (fun _ => Manifest.image []) 1
    ⟨[⟨1, "sha256:a", ["t"], 100⟩, ⟨2, "sha256:b", ["u"], 50⟩],
      ["sha256:a", "sha256:b"], [], [], [], [], []⟩
    (sortByUpdatedDesc (collectTagged
      ⟨[⟨1, "sha256:a", ["t"], 100⟩, ⟨2, "sha256:b", ["u"], 50⟩],
        ["sha256:a", "sha256:b"], [], [], [], [], []⟩))
    rfl (by decide) (by decide)
  exact ⟨(h.1 ⟨2, "sha256:b", ["u"], 50⟩ (by decide)).1,
    h.2.1 ⟨1, "sha256:a", ["t"], 100⟩ (by decide)⟩

/-- C7 counterexample: with `keep-n-tagged = 1` as the only option and no
excluded tags, the claim bounds the surviving non-excluded tagged versions
by 0 + 1; on this input the child `sha256:c` (tagged `t`, shared between
the kept parent `sha256:p` and the evicted parent `sha256:q`) is skipped by
the children loop because a parent survives, so after the run 2 tagged
versions survive (`sha256:p` and `sha256:c`). -/
theorem c7_counterexample :
    ((runOutState (cleanupModel
        ⟨(fun dg => if dg == "sha256:p" then Manifest.index ["sha256:c"]
            else if dg == "sha256:q" then Manifest.index ["sha256:c"]
            else Manifest.image []),
          (fun _ => "sha256:x"), (fun _ => 9), (fun _ => false)⟩
        ⟨none, none, false, false, false, some 1, none, false⟩
        [⟨1, "sha256:p", ["a"], 100⟩, ⟨2, "sha256:q", ["b"], 50⟩,
          ⟨3, "sha256:c", ["t"], 10⟩])).repo.filter
      (fun v => !(List.contains (runOutState (cleanupModel
        ⟨(fun dg => if dg == "sha256:p" then Manifest.index ["sha256:c"]
            else if dg == "sha256:q" then Manifest.index ["sha256:c"]
            else Manifest.image []),
          (fun _ => "sha256:x"), (fun _ => 9), (fun _ => false)⟩
        ⟨none, none, false, false, false, some 1, none, false⟩
        [⟨1, "sha256:p", ["a"], 100⟩, ⟨2, "sha256:q", ["b"], 50⟩,
          ⟨3, "sha256:c", ["t"], 10⟩])).deleted v.name) &&
        !(v.tags.isEmpty))).length = 2 ∧
    (runOutState (cleanupModel
        ⟨(fun dg => if dg == "sha256:p" then Manifest.index ["sha256:c"]
            else if dg == "sha256:q" then Manifest.index ["sha256:c"]
            else Manifest.image []),
          (fun _ => "sha256:x"), (fun _ => 9), (fun _ => false)⟩
        ⟨none, none, false, false, false, some 1, none, false⟩
        [⟨1, "sha256:p", ["a"], 100⟩, ⟨2, "sha256:q", ["b"], 50⟩,
          ⟨3, "sha256:c", ["t"], 10⟩])).excludeTags = [] := by
  refine ⟨?_, ?_⟩ <;> decide

end GhcrCleanup
